import Mathlib

/-!
Verification of the content-normalization layer of the NexusLearn frontend.

The four viewer components (`MindMapViewer.jsx`, `QuizViewer.jsx`,
`FlashcardsViewer.jsx`, `TimelineViewer.jsx`) each turn a raw content string
into a renderable model: a JSON-first attempt followed by a tolerant
line-oriented text grammar.  This file is a shallow embedding of that code:
strings are `List Char`, the JavaScript regular expressions are translated
into explicit character-level scanners, `JSON.parse` is modelled by an
executable JSON parser returning `Option`, and the quiz session state is a
step function on an explicit state record.  All definitions are executable,
so concrete inputs can be settled by `decide` / `rfl`.
-/

namespace NexusVerify

/-! ## JavaScript string primitives -/

/-- Characters matched by the JavaScript regex class `\s` (and removed by
`String.prototype.trim`): tab, LF, VT, FF, CR, space, NBSP, Ogham space,
the U+2000–U+200A range, LS, PS, NNBSP, MMSP, ideographic space, BOM. -/
def jsWs (c : Char) : Bool :=
  let n := c.toNat
  n == 9 || n == 10 || n == 11 || n == 12 || n == 13 || n == 32 ||
  n == 0xA0 || n == 0x1680 || (0x2000 ≤ n && n ≤ 0x200A) ||
  n == 0x2028 || n == 0x2029 || n == 0x202F || n == 0x205F ||
  n == 0x3000 || n == 0xFEFF

/-- JavaScript line terminators (where a multiline `^` matches after and a
multiline `$` matches before): LF, CR, LS, PS. -/
def lineTerm (c : Char) : Bool :=
  let n := c.toNat
  n == 10 || n == 13 || n == 0x2028 || n == 0x2029

/-- Model of `String.prototype.trim`. -/
def jsTrim (l : List Char) : List Char :=
  ((l.dropWhile jsWs).reverse.dropWhile jsWs).reverse

/-- A line survives a JavaScript `filter(l => l.trim())` exactly when its
trimmed form is non-empty. -/
def keptLine (l : List Char) : Bool :=
  !(jsTrim l).isEmpty

/-- Model of `split('\n')`: split on every LF, keeping empty pieces. -/
def splitNl : List Char → List (List Char)
  | [] => [[]]
  | c :: cs =>
    if c = '\n' then [] :: splitNl cs
    else
      match splitNl cs with
      | [] => [[c]]
      | h :: t => (c :: h) :: t

/-- ASCII decimal digit test (`\d`). -/
def isDigit (c : Char) : Bool :=
  48 ≤ c.toNat && c.toNat ≤ 57

/-- JavaScript word character (`\w`, used by the `\b` boundary):
ASCII letters, digits and underscore. -/
def isWordChar (c : Char) : Bool :=
  let n := c.toNat
  (65 ≤ n && n ≤ 90) || (97 ≤ n && n ≤ 122) || (48 ≤ n && n ≤ 57) || n == 95

/-! ## Decimal rendering of natural numbers

JavaScript template literals such as `` `node-${nodeId++}` `` render the
counter in decimal.  `decDigits` is a fuel-based model of that rendering;
the round-trip through `digitsVal` gives injectivity, which is what the
graph well-formedness claims need. -/

/-- The decimal digit character for `d` (`d < 10`). -/
def digitChr (d : Nat) : Char :=
  match d with
  | 0 => '0' | 1 => '1' | 2 => '2' | 3 => '3' | 4 => '4'
  | 5 => '5' | 6 => '6' | 7 => '7' | 8 => '8' | _ => '9'

/-- Fuel-based decimal digit list of `n` (most significant first). -/
def decDigits : Nat → Nat → List Char
  | 0, _ => []
  | f + 1, n => if n < 10 then [digitChr n] else decDigits f (n / 10) ++ [digitChr (n % 10)]

/-- Decimal rendering of a natural number, with enough fuel. -/
def decOfNat (n : Nat) : List Char := decDigits (n + 1) n

/-- Numeric value of a digit list (inverse of the rendering). -/
def digitsVal (l : List Char) : Nat :=
  l.foldl (fun a c => a * 10 + (c.toNat - 48)) 0

/-- Model of the template literal `` `node-${k}` ``. -/
def mkNodeId (k : Nat) : String := String.mk ("node-".data ++ decOfNat k)

/-- Model of the template literal `` `edge-${k}` ``. -/
def mkEdgeId (k : Nat) : String := String.mk ("edge-".data ++ decOfNat k)

/-! ## Mind map viewer (`MindMapViewer.jsx`, `parseTextMindMap`)

The text grammar walks the non-blank lines, derives a depth from the
leading-whitespace count (`floor(indent / 2)`), strips one leading bullet
marker, and keeps a parent stack indexed by depth.  The node and edge
records carry every field the source constructs (positions, type, inline
style) so the embedding is a full translation of lines 45–128. -/

/-- A ReactFlow node as built by `parseTextMindMap` (`id`, `data.label`,
`position`, `type`, and the inline `style` fields).  The default fallback
node omits `fontSize`/`fontWeight`, hence the `Option`. -/
structure MMNode where
  id : String
  label : String
  x : Nat
  y : Nat
  typ : String
  background : String
  color : String
  border : String
  borderRadius : String
  padding : String
  fontSize : Option String
  fontWeight : Option String
deriving DecidableEq, Repr

/-- A ReactFlow edge as built by `parseTextMindMap`. -/
structure MMEdge where
  id : String
  source : String
  target : String
  typ : String
  animated : Bool
  stroke : String
deriving DecidableEq, Repr

/-- The `{ nodes, edges }` pair returned by the parser. -/
structure MindMap where
  nodes : List MMNode
  edges : List MMEdge
deriving DecidableEq, Repr

/-- The character class of the bullet-stripping regex `/^[-*â€¢]\s*/`.
The source file contains the three-character mojibake sequence
U+00E2 U+20AC U+00A2 (a UTF-8-encoded bullet read as Latin-1), so the
class is exactly these five characters. -/
def mmBulletChar (c : Char) : Bool :=
  c == '-' || c == '*' || c.toNat == 0xE2 || c.toNat == 0x20AC || c.toNat == 0xA2

/-- Model of `line.trim().replace(/^[-*â€¢]\s*/, '')` applied after `jsTrim`:
remove one bullet character and the whitespace run following it. -/
def stripBullet (l : List Char) : List Char :=
  match l with
  | [] => []
  | c :: rest => if mmBulletChar c then rest.dropWhile jsWs else c :: rest

/-- Depth of a line: `Math.floor(indent / 2)` where `indent` is the length
of the leading `\s*` run (lines 57–59). -/
def mmLevel (line : List Char) : Nat := (line.takeWhile jsWs).length / 2

/-- The cleaned label text of a line (line 62). -/
def cleanMMText (line : List Char) : List Char := stripBullet (jsTrim line)

/-- Node background colour by depth tier (line 73). -/
def mmBackground (level : Nat) : String :=
  if level == 0 then "#6366f1" else if level == 1 then "#8b5cf6" else "#a78bfa"

/-- Parser state: accumulated nodes/edges, the parent stack (a JavaScript
array that may contain holes, hence `Option`), the previous line's level,
the `nodeId` counter and the `forEach` index. -/
structure MMState where
  nodes : List MMNode
  edges : List MMEdge
  stack : List (Option String)
  currentLevel : Nat
  nodeId : Nat
  lineIdx : Nat
deriving Repr

/-- Model of the JavaScript assignment `nodeStack[level] = id`: in-place
update, or extension with holes when `level` is past the end. -/
def setStack (st : List (Option String)) (i : Nat) (v : String) : List (Option String) :=
  if i < st.length then st.set i (some v)
  else st ++ List.replicate (i - st.length) none ++ [some v]

/-- The node record built at lines 66–81 of `MindMapViewer.jsx`. -/
def mmNode (level idx nodeId : Nat) (text : List Char) : MMNode :=
  { id := mkNodeId nodeId, label := String.mk text,
    x := level * 250, y := idx * 100,
    typ := if level == 0 then "input" else "default",
    background := mmBackground level,
    color := "white", border := "2px solid #4338ca",
    borderRadius := "8px", padding := "10px",
    fontSize := some (if level == 0 then "16px" else "14px"),
    fontWeight := some (if level == 0 then "bold" else "normal") }

/-- The hierarchy-tracking update of lines 86–93: push when deeper,
`splice(level+1)` then push when shallower, in-place replace when equal. -/
def mmStack (stack : List (Option String)) (currentLevel level : Nat) (nid : String) :
    List (Option String) :=
  if currentLevel < level then stack ++ [some nid]
  else if level < currentLevel then stack.take (level + 1) ++ [some nid]
  else setStack stack level nid

/-- The edge object literal of lines 97–104. -/
def mkMMEdge (eid src tgt : String) : MMEdge :=
  { id := eid, source := src, target := tgt, typ := "smoothstep",
    animated := true, stroke := "#8b5cf6" }

/-- The edge creation of lines 96–105, reading `nodeStack[level-1]` after
the stack update; `undefined` (a missing index or a hole) is falsy and
suppresses the edge.  Ids are never the empty string, so `some` entries
are always truthy. -/
def mmEdges (edges : List MMEdge) (stack' : List (Option String)) (level : Nat) (nid : String) :
    List MMEdge :=
  if level == 0 then edges
  else
    match stack'.getD (level - 1) none with
    | some src => edges ++ [mkMMEdge (mkEdgeId edges.length) src nid]
    | none => edges

/-- One iteration of the `lines.forEach` body (lines 55–108).  Lines whose
cleaned text is empty return early (no node, no stack change, but the
`forEach` index still advances). -/
def mmStep (s : MMState) (line : List Char) : MMState :=
  let level := mmLevel line
  let text := cleanMMText line
  if text.isEmpty then { s with lineIdx := s.lineIdx + 1 }
  else
    let nid := mkNodeId s.nodeId
    let stack' := mmStack s.stack s.currentLevel level nid
    { nodes := s.nodes ++ [mmNode level s.lineIdx s.nodeId text],
      edges := mmEdges s.edges stack' level nid,
      stack := stack',
      currentLevel := level, nodeId := s.nodeId + 1, lineIdx := s.lineIdx + 1 }

/-- Initial parser state. -/
def mmInit : MMState := ⟨[], [], [], 0, 0, 0⟩

/-- The default single node returned when no lines parse (lines 111–125). -/
def mmDefaultNode : MMNode :=
  { id := "node-0", label := "Mind Map", x := 250, y := 50, typ := "input",
    background := "#6366f1", color := "white", border := "2px solid #4338ca",
    borderRadius := "8px", padding := "10px", fontSize := none, fontWeight := none }

/-- Model of `parseTextMindMap` (lines 45–128). -/
def parseTextMindMap (text : List Char) : MindMap :=
  let lines := (splitNl text).filter keptLine
  let s := lines.foldl mmStep mmInit
  if s.nodes.isEmpty then { nodes := s.nodes ++ [mmDefaultNode], edges := s.edges }
  else { nodes := s.nodes, edges := s.edges }

/-- The `(level, label)` item a line emits, if any. -/
def itemOf (l : List Char) : Option (Nat × List Char) :=
  if (cleanMMText l).isEmpty then none else some (mmLevel l, cleanMMText l)

/-- The `(level, label)` items a text actually emits as nodes: non-blank
lines whose cleaned label is non-empty, in document order. -/
def mmItems (text : List Char) : List (Nat × List Char) :=
  ((splitNl text).filter keptLine).filterMap itemOf

/-- The well-formedness invariant of the parser state. -/
def MMInv10 (s : MMState) : Prop :=
  s.nodeId = s.nodes.length ∧
  s.nodes.map MMNode.id = (List.range s.nodeId).map mkNodeId ∧
  (∀ o ∈ s.stack, ∀ v, o = some v → ∃ k, k < s.nodeId ∧ v = mkNodeId k) ∧
  (∀ e ∈ s.edges,
    (∃ k, k < s.nodeId ∧ e.source = mkNodeId k) ∧ ∃ k, k < s.nodeId ∧ e.target = mkNodeId k) ∧
  (s.edges.map MMEdge.target).Nodup

/-! ## Parent correctness of the outline parser on staircase inputs

On inputs whose emitted depth sequence starts at 0 and moves in
non-decreasing steps of at most one, the parent stack really does hold, at
every slot `d`, the most recent node of depth `d`; the claimed
"nearest preceding node at depth−1" invariant is proved in that regime.
(The counterexample below shows the stack goes stale after a dedent that is
followed by a deeper line, so the invariant does not hold for all inputs.) -/

/-- Index of the last occurrence of `d` in a list of levels. -/
def lastIdxWith : List Nat → Nat → Option Nat
  | [], _ => none
  | l :: rest, d =>
    match lastIdxWith rest d with
    | some j => some (j + 1)
    | none => if l = d then some 0 else none

/-- Staircase check from a previous level: each next level is between the
previous one and the previous one plus one. -/
def stairB : Nat → List Nat → Bool
  | _, [] => true
  | prev, l :: ls => (decide (prev ≤ l) && decide (l ≤ prev + 1)) && stairB l ls

/-- A staircase level sequence: empty, or starting at 0 and moving in
non-decreasing steps of at most one. -/
def StaircaseLevels : List Nat → Bool
  | [] => true
  | l :: ls => (l == 0) && stairB l ls

/-- Levels of the emitted items. -/
def levelsOf (done : List (Nat × List Char)) : List Nat := done.map Prod.fst

/-- Level of the most recently emitted item (0 if none). -/
def lastLevel (done : List (Nat × List Char)) : Nat := (levelsOf done).getLast?.getD 0

/-- Edge bookkeeping of the parser: every edge targets an emitted node; a
depth-0 node has no incoming edge; a node at depth `lv+1` has exactly one
incoming edge, from the most recent preceding node at depth `lv`. -/
def EdgesC2 (done : List (Nat × List Char)) (edges : List MMEdge) : Prop :=
  (∀ e ∈ edges, ∃ k, k < done.length ∧ e.target = mkNodeId k) ∧
  ∀ k, k < done.length →
    ((levelsOf done).getD k 0 = 0 →
        edges.filter (fun e => e.target == mkNodeId k) = []) ∧
    ∀ lv, (levelsOf done).getD k 0 = lv + 1 →
      ∃ j, lastIdxWith ((levelsOf done).take k) lv = some j ∧
        (edges.filter (fun e => e.target == mkNodeId k)).map MMEdge.source = [mkNodeId j]

/-- The stack really holds, at each slot `d ≤` the current level, the id of
the most recent node at depth `d`. -/
def StackC2 (done : List (Nat × List Char)) (stack : List (Option String)) : Prop :=
  ∀ d, d ≤ lastLevel done →
    ∃ j, lastIdxWith (levelsOf done) d = some j ∧ stack.get? d = some (some (mkNodeId j))

/-- Full invariant of the parser state on staircase inputs. -/
def MMInvC2 (done : List (Nat × List Char)) (s : MMState) : Prop :=
  s.nodeId = done.length ∧
  s.nodes.length = done.length ∧
  (done = [] → s.stack = [] ∧ s.currentLevel = 0 ∧ s.edges = []) ∧
  (done ≠ [] → s.currentLevel = lastLevel done ∧
    s.stack.length = s.currentLevel + 1 ∧ StackC2 done s.stack) ∧
  EdgesC2 done s.edges

/-! ## Quiz viewer (`QuizViewer.jsx`, `parseTextQuiz`)

The text grammar splits the input into question blocks (on lines starting
with `N.`, falling back to blank lines), then classifies each non-blank
line by the first matching pattern: question, option, answer, explanation.
Each regex of lines 215–248 is translated into an explicit scanner;
comments cite the regex being modelled. -/

/-- Case-insensitive ASCII prefix test (the `/i` flag on ASCII words). -/
def startsWithCI : List Char → List Char → Bool
  | _, [] => true
  | [], _ :: _ => false
  | c :: cs, p :: ps => (c.toLower == p.toLower) && startsWithCI cs ps

/-- Length of the leading `*` run. -/
def starCount (l : List Char) : Nat := (l.takeWhile (· = '*')).length

/-- Letters of the option classes `[a-dA-D]`. -/
def isOptLetter (c : Char) : Bool :=
  c == 'a' || c == 'b' || c == 'c' || c == 'd' ||
  c == 'A' || c == 'B' || c == 'C' || c == 'D'

/-- Match `^\*?\*?Question\s*\d*[\*\:]\s*` at the start, returning the
remainder.  More than two leading stars can never match (the word must
follow at most two). -/
def matchQuestionAlt1 (l : List Char) : Option (List Char) :=
  let n := starCount l
  if n > 2 then none
  else
    let l1 := l.drop n
    if startsWithCI l1 "question".data then
      let l4 := ((l1.drop 8).dropWhile jsWs).dropWhile isDigit
      match l4 with
      | c :: rest => if c = '*' ∨ c = ':' then some (rest.dropWhile jsWs) else none
      | [] => none
    else none

/-- Match `\*?\d+\.\s*` at the current position, returning the remainder. -/
def matchQuestionAlt2 (l : List Char) : Option (List Char) :=
  let core : List Char → Option (List Char) := fun cs =>
    let ds := cs.takeWhile isDigit
    if ds.isEmpty then none
    else
      match cs.drop ds.length with
      | '.' :: rest => some (rest.dropWhile jsWs)
      | _ => none
  match l with
  | '*' :: rest => core rest
  | _ => core l

/-- Match `^Q\d*:\s*` at the start, returning the remainder. -/
def matchQuestionAlt3 (l : List Char) : Option (List Char) :=
  match l with
  | c :: rest =>
    if c = 'Q' ∨ c = 'q' then
      match rest.dropWhile isDigit with
      | ':' :: r3 => some (r3.dropWhile jsWs)
      | _ => none
    else none
  | [] => none

/-- Does `\*?\d+\.` match anywhere: a digit directly followed by `.`
(taking the last digit of the run)? -/
def hasDigitDot : List Char → Bool
  | a :: b :: rest => (isDigit a && b == '.') || hasDigitDot (b :: rest)
  | _ => false

/-- The question-line test `/^\*?\*?Question\s*\d*[\*\:]|\*?\d+\.|^Q\d*:/i`
(line 215); the middle alternative is unanchored. -/
def isQuestionLine (l : List Char) : Bool :=
  (matchQuestionAlt1 l).isSome || hasDigitDot l || (matchQuestionAlt3 l).isSome

/-- Scan for the leftmost unanchored `\*?\d+\.\s*` match and remove it. -/
def scanQuestionAlt2 : List Char → List Char
  | [] => []
  | c :: cs =>
    match matchQuestionAlt2 (c :: cs) with
    | some rest => rest
    | none => c :: scanQuestionAlt2 cs

/-- One application of
`replace(/^\*?\*?Question\s*\d*[\*\:]\s*|\*?\d+\.\s*|^Q\d*:\s*/i, '')`:
at position 0 the alternatives are tried in order; at later positions only
the unanchored middle alternative can match (line 216). -/
def replaceQuestionOnce (l : List Char) : List Char :=
  match matchQuestionAlt1 l with
  | some rest => rest
  | none =>
    match matchQuestionAlt2 l with
    | some rest => rest
    | none =>
      match matchQuestionAlt3 l with
      | some rest => rest
      | none =>
        match l with
        | [] => []
        | c :: cs => c :: scanQuestionAlt2 cs

/-- The question text: strip the label, then `.trim()`. -/
def stripQuestion (l : List Char) : List Char := jsTrim (replaceQuestionOnce l)

/-- Match `^\*?[a-dA-D][\)\.\:]\s*` at the start, returning the remainder. -/
def matchOptionAlt1 (l : List Char) : Option (List Char) :=
  let core : List Char → Option (List Char) := fun cs =>
    match cs with
    | c :: p :: rest =>
      if isOptLetter c && (p = ')' ∨ p = '.' ∨ p = ':' : Bool) then
        some (rest.dropWhile jsWs)
      else none
    | _ => none
  match l with
  | '*' :: rest => core rest
  | _ => core l

/-- Match `\*?\([a-dA-D]\)\s*` at the current position. -/
def matchOptionAlt2 (l : List Char) : Option (List Char) :=
  match l with
  | '*' :: '(' :: c :: ')' :: rest =>
    if isOptLetter c then some (rest.dropWhile jsWs) else none
  | '(' :: c :: ')' :: rest =>
    if isOptLetter c then some (rest.dropWhile jsWs) else none
  | _ => none

/-- Does `\*?\([a-dA-D]\)` match anywhere? -/
def hasParenLetter : List Char → Bool
  | [] => false
  | c :: cs => (matchOptionAlt2 (c :: cs)).isSome || hasParenLetter cs

/-- The option-line test `/^\*?[a-dA-D][\)\.\:]|\*?\([a-dA-D]\)/`
(line 220); the second alternative is unanchored. -/
def isOptionLine (l : List Char) : Bool :=
  (matchOptionAlt1 l).isSome || hasParenLetter l

/-- Scan for the leftmost unanchored `\*?\([a-dA-D]\)\s*` match. -/
def scanOptionAlt2 : List Char → List Char
  | [] => []
  | c :: cs =>
    match matchOptionAlt2 (c :: cs) with
    | some rest => rest
    | none => c :: scanOptionAlt2 cs

/-- One application of
`replace(/^\*?[a-dA-D][\)\.\:]\s*|\*?\([a-dA-D]\)\s*/, '')` (line 221). -/
def replaceOptionOnce (l : List Char) : List Char :=
  match matchOptionAlt1 l with
  | some rest => rest
  | none =>
    match matchOptionAlt2 l with
    | some rest => rest
    | none =>
      match l with
      | [] => []
      | c :: cs => c :: scanOptionAlt2 cs

/-- The option text: strip the label, then `.trim()`. -/
def stripOption (l : List Char) : List Char := jsTrim (replaceOptionOnce l)

/-- The class `[\s:\*]` of the answer-label regex. -/
def answerClassChar (c : Char) : Bool := jsWs c || c == ':' || c == '*'

/-- After `Answer`/`Correct( Answer)?` and optional `\*{0,2}`, require one
`[\s:\*]` and consume the maximal run (`[\s:\*]+` greedy; the optional
stars are members of the same class, so the whole run is consumed). -/
def afterAnswerWord (cs : List Char) : Option (List Char) :=
  match cs with
  | c :: _ => if answerClassChar c then some (cs.dropWhile answerClassChar) else none
  | [] => none

/-- Match `^\*{0,2}(Answer|Correct(\s+Answer)?)\*{0,2}[\s:\*]+` (the strip
regex of line 229; the detect regex of line 226 succeeds iff this does),
returning the remainder.  The optional `(\s+Answer)` group backtracks to
the bare `Correct` when the rest of the pattern fails after it. -/
def answerPrefixRest (l : List Char) : Option (List Char) :=
  let n := starCount l
  if n > 2 then none
  else
    let l1 := l.drop n
    if startsWithCI l1 "answer".data then afterAnswerWord (l1.drop 6)
    else if startsWithCI l1 "correct".data then
      let l2 := l1.drop 7
      let ws := l2.takeWhile jsWs
      if !ws.isEmpty && startsWithCI (l2.drop ws.length) "answer".data then
        match afterAnswerWord ((l2.drop ws.length).drop 6) with
        | some r => some r
        | none => afterAnswerWord l2
      else afterAnswerWord l2
    else none

/-- The answer-line test (line 226). -/
def isAnswerLine (l : List Char) : Bool := (answerPrefixRest l).isSome

/-- Model of `replace(/\*\*/g, '')`: remove non-overlapping `**` pairs
left to right (line 230). -/
def removeDoubleStars : List Char → List Char
  | '*' :: '*' :: rest => removeDoubleStars rest
  | c :: rest => c :: removeDoubleStars rest
  | [] => []

def boundaryBefore : Option Char → Bool
  | none => true
  | some p => !isWordChar p

def boundaryAfter : List Char → Bool
  | [] => true
  | n :: _ => !isWordChar n

/-- Scanner for `/\b[A-D]\b/i` carrying the previous character for the
left word boundary (line 236). -/
def letterScan : Option Char → List Char → Option Char
  | _, [] => none
  | prev, c :: rest =>
    if isOptLetter c && boundaryBefore prev && boundaryAfter rest then some c
    else letterScan (some c) rest

/-- First standalone letter A–D (case-insensitive) in the answer text. -/
def letterMatch (l : List Char) : Option Char := letterScan none l

/-- The cleaned answer text of lines 228–231: strip the label, remove all
`**`, trim. -/
def answerText (l : List Char) : List Char :=
  jsTrim (removeDoubleStars ((answerPrefixRest l).getD []))

/-- Match `^\*{0,2}Explanation\*{0,2}:\s*`, returning the remainder
(strip regex of line 248; the detect regex of line 247 succeeds iff this
does). -/
def explanationRest (l : List Char) : Option (List Char) :=
  let n := starCount l
  if n > 2 then none
  else
    let l1 := l.drop n
    if startsWithCI l1 "explanation".data then
      let l2 := l1.drop 11
      let m := starCount l2
      if m > 2 then none
      else
        match l2.drop m with
        | ':' :: rest => some (rest.dropWhile jsWs)
        | _ => none
    else none

/-- The explanation-line test (line 247). -/
def isExplanationLine (l : List Char) : Bool := (explanationRest l).isSome

/-- The explanation text (line 248): remainder, then `.trim()`. -/
def stripExplanation (l : List Char) : List Char := jsTrim ((explanationRest l).getD [])

/-- A canonical quiz question as assembled by the text grammar. -/
structure QuizQuestion where
  question : String
  options : List String
  correctAnswer : Int
  explanation : String
deriving DecidableEq, Repr

/-- Per-block accumulator of `parseTextQuiz` (lines 204–207):
`correctAnswer = -1` means "not yet resolved". -/
structure QAcc where
  question : List Char
  options : List (List Char)
  correctAnswer : Int
  explanation : List Char
deriving Repr

/-- Classification of one (trimmed) line, first match wins (lines 211–251). -/
def quizLineStep (acc : QAcc) (rawLine : List Char) : QAcc :=
  let line := jsTrim rawLine
  if isQuestionLine line then { acc with question := stripQuestion line }
  else if isOptionLine line then { acc with options := acc.options ++ [stripOption line] }
  else if isAnswerLine line then
    match letterMatch (answerText line) with
    | some c => { acc with correctAnswer := (c.toUpper.toNat : Int) - 65 }
    | none => acc
  else if isExplanationLine line then { acc with explanation := stripExplanation line }
  else acc

/-- One section of the quiz text (lines 200–270): needs at least two
non-blank lines, a question and two options; an unresolved answer defaults
to index 0. -/
def parseQuizSection (sec : List Char) : Option QuizQuestion :=
  let lines := (splitNl sec).filter keptLine
  if lines.length < 2 then none
  else
    let acc := lines.foldl quizLineStep ⟨[], [], -1, []⟩
    if !acc.question.isEmpty && decide (2 ≤ acc.options.length) then
      some ⟨String.mk acc.question, acc.options.map String.mk,
            if acc.correctAnswer = -1 then 0 else acc.correctAnswer,
            String.mk acc.explanation⟩
    else none

/-- The lookahead `(?=^\d+\.)`: digits then a dot. -/
def lookDigitsDot (cs : List Char) : Bool :=
  match cs with
  | c :: _ =>
    isDigit c &&
      (match cs.dropWhile isDigit with
       | '.' :: _ => true
       | _ => false)
  | [] => false

/-- Model of `split(/(?=^\d+\.)/m)`: cut before every line start (other
than position 0) that looks ahead to `\d+\.`.  The flag tracks whether the
current position follows a line terminator. -/
def splitQuizGo : Bool → List Char → List (List Char)
  | _, [] => [[]]
  | atLS, c :: cs =>
    let r := splitQuizGo (lineTerm c) cs
    let r' :=
      match r with
      | [] => [[c]]
      | h :: t => (c :: h) :: t
    if atLS && lookDigitsDot (c :: cs) then [] :: r' else r'

def splitQuizSections (text : List Char) : List (List Char) := splitQuizGo false text

/-- Remainder after a `\n\s*\n` separator whose first `\n` has just been
consumed: the greedy match extends to the last `\n` of the maximal
whitespace run. -/
def blankSepRest (cs : List Char) : Option (List Char) :=
  let run := cs.takeWhile jsWs
  match run.reverse.findIdx? (fun c => c = '\n') with
  | some j => some (cs.drop (run.length - j))
  | none => none

/-- Fuel-based model of `split(/\n\s*\n/)`. -/
def splitBlankGo : Nat → List Char → List (List Char)
  | 0, rest => [rest]
  | _ + 1, [] => [[]]
  | f + 1, c :: cs =>
    if c = '\n' then
      match blankSepRest cs with
      | some rem => [] :: splitBlankGo f rem
      | none =>
        match splitBlankGo f cs with
        | [] => [[c]]
        | h :: t => (c :: h) :: t
    else
      match splitBlankGo f cs with
      | [] => [[c]]
      | h :: t => (c :: h) :: t

def splitBlank (text : List Char) : List (List Char) :=
  splitBlankGo (text.length + 1) text

/-- Model of `parseTextQuiz` (lines 185–273): split into sections by
question numbers, falling back to blank lines when that yields a single
section; parse each section. -/
def parseTextQuiz (text : List Char) : List QuizQuestion :=
  let sections1 := splitQuizSections text
  let sections := if sections1.length = 1 then splitBlank text else sections1
  sections.filterMap parseQuizSection

/-! ### Quiz session state machine (`QuizViewer.jsx` lines 4–74)

The component state is six `useState` hooks; the handlers are modelled as
a step function.  `handleSubmitAnswer` reads
`questions[currentIndex].correctAnswer`; the model guards the lookup with
`get?` (the UI renders the quiz, and thus can invoke the handler, only
when `currentIndex` is in range). -/

structure QuizSessionState where
  currentIndex : Nat
  selectedAnswer : Option Nat
  showResult : Bool
  score : Nat
  completed : Bool
  answered : List Nat
deriving DecidableEq, Repr

inductive QuizOp where
  | select (i : Nat)
  | submit
  | next
  | restart
deriving DecidableEq, Repr

/-- The initial hook values (lines 5–10), also restored by `handleRestart`
(lines 67–74). -/
def quizInit : QuizSessionState := ⟨0, none, false, 0, false, []⟩

/-- One UI event: `handleAnswerSelect` (40–43), `handleSubmitAnswer`
(45–55), `handleNextQuestion` (57–65), `handleRestart` (67–74).
`includes` is modelled as list membership. -/
def quizStep (qs : List QuizQuestion) (s : QuizSessionState) : QuizOp → QuizSessionState
  | .select i => if s.showResult then s else { s with selectedAnswer := some i }
  | .submit =>
    match s.selectedAnswer with
    | none => s
    | some sel =>
      match qs.get? s.currentIndex with
      | none => { s with showResult := true }
      | some q =>
        if (sel : Int) = q.correctAnswer ∧ s.currentIndex ∉ s.answered then
          { s with
            showResult := true
            score := s.score + 1
            answered := s.answered ++ [s.currentIndex] }
        else { s with showResult := true }
  | .next =>
    if s.currentIndex < qs.length - 1 then
      { s with currentIndex := s.currentIndex + 1, selectedAnswer := none, showResult := false }
    else { s with completed := true }
  | .restart => quizInit

/-- Run a sequence of UI events from the initial state. -/
def quizRun (qs : List QuizQuestion) (ops : List QuizOp) : QuizSessionState :=
  ops.foldl (quizStep qs) quizInit

/-! ## Timeline viewer (`TimelineViewer.jsx`, `parseTextTimeline`)

Blocks are blank-line separated; the first line of a block is matched
against `[Date]: Title`, then against four date-token patterns, else the
whole line is the title with the literal date `"Date Unknown"`.  A second
pass (only when the first yields nothing) reads `#` headings as a current
date for bullet/numbered lines.  Zero events fall back to a sample event. -/

structure TEvent where
  date : String
  title : String
  description : String
deriving DecidableEq, Repr

/-- Model of `Array.prototype.join` with a one-character separator. -/
def joinSep (sep : Char) : List (List Char) → List Char
  | [] => []
  | [l] => l
  | l :: ls => l ++ sep :: joinSep sep ls

/-- Match `^\[([^\]]+)\]:\s*(.+)` (line 63), returning the two captures.
`(.+)` cannot cross a line terminator; when everything after `\s*` is
consumed, the greedy `\s*` backtracks one non-terminator whitespace
character into `(.+)`. -/
def matchBackendFormat (l : List Char) : Option (List Char × List Char) :=
  match l with
  | '[' :: rest =>
    let inner := rest.takeWhile (fun c => !(c = ']'))
    if inner.isEmpty then none
    else
      match rest.drop inner.length with
      | ']' :: ':' :: r2 =>
        let ws := r2.takeWhile jsWs
        let after := r2.drop ws.length
        match after with
        | _ :: _ => some (inner, after.takeWhile (fun c => !lineTerm c))
        | [] =>
          match ws.reverse.dropWhile lineTerm with
          | [] => none
          | c :: _ => some (inner, [c])
      | _ => none
  | _ => none

def isUpperA (c : Char) : Bool := 65 ≤ c.toNat && c.toNat ≤ 90

def isLowerA (c : Char) : Bool := 97 ≤ c.toNat && c.toNat ≤ 122

/-- Date alternative `\d{4}` at the start: the consumed text. -/
def dMatch1 (l : List Char) : Option (List Char) :=
  let ds := l.take 4
  if ds.length = 4 && ds.all isDigit then some ds else none

/-- Date alternative `\d{1,2}\/\d{1,2}\/\d{2,4}`, greedy with
backtracking on the bounded repetitions. -/
def dMatch2 (l : List Char) : Option (List Char) :=
  let attempt : Nat → Option (List Char) := fun n1 =>
    let d1 := l.take n1
    if d1.length = n1 && d1.all isDigit then
      match l.drop n1 with
      | '/' :: r1 =>
        let inner : Nat → Option (List Char) := fun n2 =>
          let d2 := r1.take n2
          if d2.length = n2 && d2.all isDigit then
            match r1.drop n2 with
            | '/' :: r2 =>
              let run := r2.takeWhile isDigit
              let n3 := min run.length 4
              if 2 ≤ n3 then some (d1 ++ '/' :: d2 ++ '/' :: r2.take n3) else none
            | _ => none
          else none
        match inner 2 with
        | some m => some m
        | none => inner 1
      | _ => none
    else none
  match attempt 2 with
  | some m => some m
  | none => attempt 1

/-- Date alternative `[A-Z][a-z]+\s+\d{1,2},?\s+\d{4}`. -/
def dMatch3 (l : List Char) : Option (List Char) :=
  match l with
  | c :: r1 =>
    if isUpperA c then
      let low := r1.takeWhile isLowerA
      if low.isEmpty then none
      else
        let r2 := r1.drop low.length
        let ws1 := r2.takeWhile jsWs
        if ws1.isEmpty then none
        else
          let r3 := r2.drop ws1.length
          let tail : Nat → Option (List Char) := fun nd =>
            let ds := r3.take nd
            if ds.length = nd && ds.all isDigit then
              let r4 := r3.drop nd
              let comma := match r4 with
                | ',' :: _ => [',']
                | _ => []
              let r5 := r4.drop comma.length
              let ws2 := r5.takeWhile jsWs
              if ws2.isEmpty then none
              else
                let r6 := r5.drop ws2.length
                let y := r6.take 4
                if y.length = 4 && y.all isDigit then
                  some (c :: low ++ ws1 ++ ds ++ comma ++ ws2 ++ y)
                else none
            else none
          match tail 2 with
          | some m => some m
          | none => tail 1
    else none
  | [] => none

/-- Date alternative `\d{1,2}\s+[A-Z][a-z]+\s+\d{4}`. -/
def dMatch4 (l : List Char) : Option (List Char) :=
  let tail : Nat → Option (List Char) := fun nd =>
    let ds := l.take nd
    if ds.length = nd && ds.all isDigit then
      let r1 := l.drop nd
      let ws1 := r1.takeWhile jsWs
      if ws1.isEmpty then none
      else
        match r1.drop ws1.length with
        | c :: r3 =>
          if isUpperA c then
            let low := r3.takeWhile isLowerA
            if low.isEmpty then none
            else
              let r4 := r3.drop low.length
              let ws2 := r4.takeWhile jsWs
              if ws2.isEmpty then none
              else
                let y := (r4.drop ws2.length).take 4
                if y.length = 4 && y.all isDigit then
                  some (ds ++ ws1 ++ c :: low ++ ws2 ++ y)
                else none
          else none
        | [] => none
    else none
  match tail 2 with
  | some m => some m
  | none => tail 1

/-- The anchored date-token regex of line 74, alternatives in order. -/
def dateMatch (l : List Char) : Option (List Char) :=
  match dMatch1 l with
  | some m => some m
  | none =>
    match dMatch2 l with
    | some m => some m
    | none =>
      match dMatch3 l with
      | some m => some m
      | none => dMatch4 l

/-- Model of `replace(/^[\s:-]+/, '')` (line 78). -/
def stripSepLeading (l : List Char) : List Char :=
  l.dropWhile (fun c => jsWs c || c == ':' || c == '-')

/-- One block of the timeline text grammar (lines 53–95).  Returns `none`
when the block yields no event (no non-blank line, or a date-token line
whose title is empty after stripping). -/
def parseTimelineBlock (block : List Char) : Option TEvent :=
  let lines := (splitNl block).filter keptLine
  match lines with
  | [] => none
  | l0 :: rest =>
    let description := jsTrim (joinSep ' ' rest)
    let dt : List Char × List Char :=
      match matchBackendFormat l0 with
      | some (d, ti) => (d, ti)
      | none =>
        match dateMatch l0 with
        | some m => (m, jsTrim (stripSepLeading (l0.drop m.length)))
        | none => ("Date Unknown".data, l0)
    if dt.2.isEmpty then none
    else some ⟨String.mk (if dt.1.isEmpty then "Unknown".data else dt.1),
               String.mk dt.2, String.mk description⟩

/-- The bullet characters of the fallback regex `/^[-*•]\s*/` (line 110;
this file's bullet is a genuine U+2022). -/
def tlBulletChar (c : Char) : Bool :=
  c == '-' || c == '*' || c.toNat == 0x2022

/-- Does the trimmed line start with `\d+\.` (line 119)? -/
def startsNumDot (l : List Char) : Bool :=
  match l with
  | c :: _ =>
    isDigit c &&
      (match l.dropWhile isDigit with
       | '.' :: _ => true
       | _ => false)
  | [] => false

/-- Strip `^\d+\.\s*` (line 120): at least one digit, a dot, then
whitespace. -/
def stripNumDot (l : List Char) : List Char :=
  match l with
  | c :: _ =>
    if isDigit c then
      match l.dropWhile isDigit with
      | '.' :: rest => rest.dropWhile jsWs
      | _ => l
    else l
  | [] => l

/-- The heading + bullet fallback of lines 98–128: `#` headings set the
current date; bullet and numbered lines emit events with the current date
(or the literal `"Unknown"` when no heading was seen). -/
def timelineFallback (text : List Char) : List TEvent :=
  let lines := (splitNl text).filter keptLine
  (lines.foldl
    (fun (acc : List TEvent × List Char) line =>
      let trimmed := jsTrim line
      match trimmed with
      | '#' :: _ =>
        (acc.1, (trimmed.dropWhile (· = '#')).dropWhile jsWs)
      | c :: r =>
        if tlBulletChar c then
          (acc.1 ++ [⟨String.mk (if acc.2.isEmpty then "Unknown".data else acc.2),
                      String.mk (r.dropWhile jsWs), ""⟩], acc.2)
        else if startsNumDot trimmed then
          (acc.1 ++ [⟨String.mk (if acc.2.isEmpty then "Unknown".data else acc.2),
                      String.mk (stripNumDot trimmed), ""⟩], acc.2)
        else acc
      | [] => acc)
    ([], [])).1

/-- Model of `parseTextTimeline` (lines 47–139). -/
def parseTextTimeline (text : List Char) : List TEvent :=
  let blocks := (splitBlank text).filter keptLine
  let events := blocks.filterMap parseTimelineBlock
  let events2 := if events.isEmpty then timelineFallback text else events
  if events2.isEmpty then [⟨"Sample Date", "Sample Event", "Sample Description"⟩] else events2

/-! ## Flashcards viewer (`FlashcardsViewer.jsx`, `parseTextFlashcards`)

Blocks are blank-line separated.  The primary grammar finds the first
`Q:`/`Question:` line (trimmed), accumulates the front until an
`A:`/`Answer:` line (untrimmed), then the back until the next
`Q:`/`Question:` line (untrimmed).  The fallback (only when the primary
yields nothing) takes each block's first line minus `N.` numbering as the
front.  Zero cards fall back to a sample card. -/

structure Flashcard where
  front : String
  back : String
deriving DecidableEq, Repr

/-- The test `/^(Q|Question):/i` (lines 94, 102). -/
def isQMark (l : List Char) : Bool :=
  startsWithCI l "q:".data || startsWithCI l "question:".data

/-- Model of `replace(/^(Q|Question):\s*/i, '')` (line 95). -/
def stripQMark (l : List Char) : List Char :=
  if startsWithCI l "q:".data then (l.drop 2).dropWhile jsWs
  else if startsWithCI l "question:".data then (l.drop 9).dropWhile jsWs
  else l

/-- The test `/^(A|Answer):/i` (line 98). -/
def isAMark (l : List Char) : Bool :=
  startsWithCI l "a:".data || startsWithCI l "answer:".data

/-- Model of `replace(/^(A|Answer):\s*/i, '')` (line 99). -/
def stripAMark (l : List Char) : List Char :=
  if startsWithCI l "a:".data then (l.drop 2).dropWhile jsWs
  else if startsWithCI l "answer:".data then (l.drop 7).dropWhile jsWs
  else l

/-- The `k` loop (lines 101–107): extend the back until the next
`Q:` line (untrimmed). -/
def qaScanBack (ls : List (List Char)) (back : List Char) : List Char :=
  match ls with
  | [] => back
  | l :: rest => if isQMark l then back else qaScanBack rest (back ++ '\n' :: l)

/-- The `j` loop (lines 97–112): extend the front until the first
`A:` line (untrimmed); on finding it, start the back. -/
def qaFromA : List (List Char) → List Char → List Char × List Char
  | [], front => (front, [])
  | l :: rest, front =>
    if isAMark l then (front, qaScanBack rest (stripAMark l))
    else qaFromA rest (front ++ '\n' :: l)

/-- The `i` loop (lines 92–115): find the first `Q:` line (trimmed). -/
def qaFindQ : List (List Char) → Option (List Char × List Char)
  | [] => none
  | l :: rest =>
    if isQMark (jsTrim l) then some (qaFromA rest (stripQMark (jsTrim l)))
    else qaFindQ rest

/-- A primary-grammar card from one block (lines 85–121): needs ≥ 2
non-blank lines and non-empty front and back, which are then trimmed. -/
def qaCard (sec : List Char) : Option Flashcard :=
  let lines := (splitNl sec).filter keptLine
  if lines.length < 2 then none
  else
    match qaFindQ lines with
    | none => none
    | some (front, back) =>
      if !front.isEmpty && !back.isEmpty then
        some ⟨String.mk (jsTrim front), String.mk (jsTrim back)⟩
      else none

/-- A fallback card from one block (lines 124–136): first line minus
`N.` numbering as front, the rest joined by newlines as back. -/
def fallbackCard (sec : List Char) : Option Flashcard :=
  let lines := (splitNl sec).filter keptLine
  if lines.length < 2 then none
  else
    match lines with
    | l0 :: rest => some ⟨String.mk (stripNumDot l0), String.mk (joinSep '\n' rest)⟩
    | [] => none

/-- Model of `parseTextFlashcards` (lines 81–141). -/
def parseTextFlashcards (text : List Char) : List Flashcard :=
  let sections := splitBlank text
  let cards := sections.filterMap qaCard
  let cards2 := if cards.isEmpty then sections.filterMap fallbackCard else cards
  if cards2.isEmpty then [⟨"Sample Question", "Sample Answer"⟩] else cards2

/-! ## JSON (`JSON.parse` model)

A strict executable JSON parser over `List Char`, with fuel for the
mutual value/array/object recursion (a single function with a mode
parameter keeps it structural, so the kernel can evaluate it).  Numbers
are modelled as exact rationals rather than IEEE doubles; none of the
settled claims depends on float rounding.  A number is an exact scaled
decimal `mantissa * 10 ^ exponent10` (no claim compares differently
written spellings of one value, so structural equality suffices).  Lone
`\uXXXX` surrogate escapes, which Lean's `Char` cannot carry,
map to U+FFFD. -/

inductive Json where
  | null
  | bool (b : Bool)
  | num (mantissa : Int) (exponent10 : Int)
  | str (s : String)
  | arr (items : List Json)
  | obj (fields : List (String × Json))

/-- JSON insignificant whitespace: space, tab, LF, CR. -/
def jsonWsChar (c : Char) : Bool :=
  c == ' ' || c == '\t' || c == '\n' || c == '\r'

def hexVal (c : Char) : Option Nat :=
  let n := c.toNat
  if 48 ≤ n && n ≤ 57 then some (n - 48)
  else if 97 ≤ n && n ≤ 102 then some (n - 87)
  else if 65 ≤ n && n ≤ 70 then some (n - 55)
  else none

/-- JSON string body (after the opening quote): standard escapes, no raw
control characters; returns the string and the rest after the closing
quote. -/
def parseJStr : List Char → List Char → Option (String × List Char)
  | acc, '"' :: rest => some (String.mk acc.reverse, rest)
  | acc, '\\' :: 'u' :: a :: b :: c :: d :: rest =>
    match hexVal a, hexVal b, hexVal c, hexVal d with
    | some va, some vb, some vc, some vd =>
      let code := ((va * 16 + vb) * 16 + vc) * 16 + vd
      let ch := if 0xD800 ≤ code && code ≤ 0xDFFF then Char.ofNat 0xFFFD else Char.ofNat code
      parseJStr (ch :: acc) rest
    | _, _, _, _ => none
  | acc, '\\' :: e :: rest =>
    (match e with
     | '"' => some '"'
     | '\\' => some '\\'
     | '/' => some '/'
     | 'b' => some (Char.ofNat 8)
     | 'f' => some (Char.ofNat 12)
     | 'n' => some '\n'
     | 'r' => some (Char.ofNat 13)
     | 't' => some '\t'
     | _ => none).bind (fun ch => parseJStr (ch :: acc) rest)
  | acc, c :: rest => if c.toNat < 0x20 then none else parseJStr (c :: acc) rest
  | _, [] => none

/-- JSON number: `-? int frac? exp?`, as an exact scaled decimal. -/
def parseJNum (cs : List Char) : Option (Int × Int × List Char) :=
  let signed : Int × List Char :=
    match cs with
    | '-' :: r => (-1, r)
    | _ => (1, cs)
  let sign := signed.1
  let cs1 := signed.2
  match cs1 with
  | c :: _ =>
    if !isDigit c then none
    else
      let intDigits := if c = '0' then ['0'] else cs1.takeWhile isDigit
      let r1 := cs1.drop intDigits.length
      let fracPart : Option (List Char × List Char) :=
        match r1 with
        | '.' :: r2 =>
          let ds := r2.takeWhile isDigit
          if ds.isEmpty then none else some (ds, r2.drop ds.length)
        | _ => some ([], r1)
      match fracPart with
      | none => none
      | some (frac, r3) =>
        let expPart : Option (Int × List Char) :=
          match r3 with
          | 'e' :: r4 | 'E' :: r4 =>
            let es : Int × List Char :=
              match r4 with
              | '+' :: r5 => (1, r5)
              | '-' :: r5 => (-1, r5)
              | _ => (1, r4)
            let ds := es.2.takeWhile isDigit
            if ds.isEmpty then none
            else some (es.1 * (digitsVal ds : Int), es.2.drop ds.length)
          | _ => some (0, r3)
        match expPart with
        | none => none
        | some (e, r6) =>
          let mantissa : Int := digitsVal (intDigits ++ frac)
          some (sign * mantissa, e - frac.length, r6)
  | [] => none

/-- Parser mode: a value, the items of an array (accumulated), or the
members of an object (accumulated). -/
inductive JMode where
  | value
  | arrItems (acc : List Json)
  | objItems (acc : List (String × Json))

/-- JavaScript object key semantics: a repeated key keeps its original
position and takes the new value. -/
def insertField (fs : List (String × Json)) (k : String) (v : Json) :
    List (String × Json) :=
  if fs.any (fun p => p.1 == k) then fs.map (fun p => if p.1 == k then (k, v) else p)
  else fs ++ [(k, v)]

/-- The JSON parser: one fuel-indexed function covering values, array
item lists and object member lists. -/
def jparse : Nat → JMode → List Char → Option (Json × List Char)
  | 0, _, _ => none
  | f + 1, .value, cs =>
    let cs1 := cs.dropWhile jsonWsChar
    match cs1 with
    | 'n' :: rest => if rest.take 3 = "ull".data then some (.null, rest.drop 3) else none
    | 't' :: rest => if rest.take 3 = "rue".data then some (.bool true, rest.drop 3) else none
    | 'f' :: rest => if rest.take 4 = "alse".data then some (.bool false, rest.drop 4) else none
    | '"' :: rest => (parseJStr [] rest).map (fun p => (.str p.1, p.2))
    | '[' :: rest => jparse f (.arrItems []) rest
    | '{' :: rest => jparse f (.objItems []) rest
    | _ => (parseJNum cs1).map (fun p => (.num p.1 p.2.1, p.2.2))
  | f + 1, .arrItems acc, cs =>
    let cs1 := cs.dropWhile jsonWsChar
    match cs1 with
    | ']' :: rest => if acc.isEmpty then some (.arr [], rest) else none
    | _ =>
      match jparse f .value cs1 with
      | none => none
      | some (v, cs2) =>
        let cs3 := cs2.dropWhile jsonWsChar
        match cs3 with
        | ',' :: rest => jparse f (.arrItems (acc ++ [v])) rest
        | ']' :: rest => some (.arr (acc ++ [v]), rest)
        | _ => none
  | f + 1, .objItems acc, cs =>
    let cs1 := cs.dropWhile jsonWsChar
    match cs1 with
    | '}' :: rest => if acc.isEmpty then some (.obj [], rest) else none
    | '"' :: rest =>
      match parseJStr [] rest with
      | none => none
      | some (k, cs2) =>
        match cs2.dropWhile jsonWsChar with
        | ':' :: cs3 =>
          match jparse f .value cs3 with
          | none => none
          | some (v, cs4) =>
            match cs4.dropWhile jsonWsChar with
            | ',' :: rest2 => jparse f (.objItems (insertField acc k v)) rest2
            | '}' :: rest2 => some (.obj (insertField acc k v), rest2)
            | _ => none
        | _ => none
    | _ => none

/-- Model of `JSON.parse`: a single value with only whitespace around it,
else failure (the thrown `SyntaxError`, as `none`). -/
def jsonParse (text : List Char) : Option Json :=
  match jparse (2 * text.length + 2) .value text with
  | some (v, rest) => if (rest.dropWhile jsonWsChar).isEmpty then some v else none
  | none => none

/-! ## The four normalizers (JSON-first, text-grammar fallback) -/

/-- JavaScript property read `q.x` on a JSON value: `none` models
`undefined`. -/
def getField (j : Json) (k : String) : Option Json :=
  match j with
  | .obj fs => (fs.find? (fun p => p.1 == k)).map Prod.snd
  | _ => none

/-- The `??` operator: take the right operand on `undefined` or `null`. -/
def jsCoalesce (x : Option Json) (y : Json) : Json :=
  match x with
  | none => y
  | some .null => y
  | some v => v

/-- Object spread `{...q}`: an object's own fields; strings and arrays
spread to index-keyed fields; other primitives spread to nothing. -/
def jsSpread (j : Json) : List (String × Json) :=
  match j with
  | .obj fs => fs
  | .arr xs => (xs.enum).map (fun p => (String.mk (decOfNat p.1), p.2))
  | .str s => (s.data.enum).map (fun p => (String.mk (decOfNat p.1), Json.str (String.mk [p.2])))
  | _ => []

/-- Field normalization of `QuizViewer.jsx` lines 26–29:
`{...q, correctAnswer: q.correctAnswer ?? q.correct_answer ?? 0}`. -/
def quizMergeItem (q : Json) : Json :=
  let ca := jsCoalesce (getField q "correctAnswer")
    (jsCoalesce (getField q "correct_answer") (.num 0 0))
  .obj (insertField (jsSpread q) "correctAnswer" ca)

/-- One match of `/^```(?:json)?\s*\n/` at a line start: three backticks,
an optional `json` tag, then a whitespace run that must contain an LF —
the greedy `\s*\n` consumes through the run's last LF. -/
def fenceOpenMatch (cs : List Char) : Option (List Char) :=
  match cs with
  | '`' :: '`' :: '`' :: r =>
    let tail : List Char → Option (List Char) := fun r2 =>
      let run := r2.takeWhile jsWs
      match run.reverse.findIdx? (fun c => c = '\n') with
      | some j => some (r2.drop (run.length - j))
      | none => none
    match (if r.take 4 = "json".data then tail (r.drop 4) else none) with
    | some rem => some rem
    | none => tail r
  | _ => none

/-- Global application of `replace(/^```(?:json)?\s*\n/gm, '')`: scan
left to right, matching only at line starts; a match ends just after an
LF, so scanning resumes at a line start. -/
def replaceFenceOpens : Nat → Bool → List Char → List Char
  | 0, _, cs => cs
  | f + 1, atLS, cs =>
    match cs with
    | [] => []
    | c :: rest =>
      match (if atLS then fenceOpenMatch cs else none) with
      | some rem => replaceFenceOpens f true rem
      | none => c :: replaceFenceOpens f (lineTerm c) rest

/-- One match of `/\n```\s*$/` starting at an LF: the greedy `\s*`
stops at the last position where a multiline `$` holds (end of input, or
just before a line terminator). -/
def fenceCloseMatch (cs : List Char) : Option (List Char) :=
  match cs with
  | '\n' :: '`' :: '`' :: '`' :: r =>
    let run := r.takeWhile jsWs
    if (r.drop run.length).isEmpty then some []
    else
      match run.reverse.findIdx? lineTerm with
      | some j => some (r.drop (run.length - 1 - j))
      | none => none
  | _ => none

/-- Global application of `replace(/\n```\s*$/gm, '')`. -/
def replaceFenceCloses : Nat → List Char → List Char
  | 0, cs => cs
  | f + 1, cs =>
    match cs with
    | [] => []
    | c :: rest =>
      match fenceCloseMatch cs with
      | some rem => replaceFenceCloses f rem
      | none => c :: replaceFenceCloses f rest

/-- The fence stripping of `QuizViewer.jsx` lines 16–21: trim, remove
fence-open lines, remove fence-close lines, trim. -/
def cleanQuizContent (content : List Char) : List Char :=
  let t := jsTrim content
  let t1 := replaceFenceOpens (t.length + 1) true t
  let t2 := replaceFenceCloses (t1.length + 1) t1
  jsTrim t2

/-- A text-grammar quiz question as the plain object the JSON path also
produces. -/
def quizQuestionToJson (q : QuizQuestion) : Json :=
  .obj [("question", .str q.question), ("options", .arr (q.options.map Json.str)),
        ("correctAnswer", .num q.correctAnswer 0), ("explanation", .str q.explanation)]

/-- The quiz parse of `QuizViewer.jsx` lines 13–36: strip fences, try
`JSON.parse`; an array is field-normalized, any other JSON value yields
no questions; a parse error falls back to the text grammar on the
original content. -/
def quizNormalize (content : List Char) : List Json :=
  match jsonParse (cleanQuizContent content) with
  | some (.arr xs) => xs.map quizMergeItem
  | some _ => []
  | none => (parseTextQuiz content).map quizQuestionToJson

/-- A text-grammar timeline event as a plain object. -/
def tEventToJson (e : TEvent) : Json :=
  .obj [("date", .str e.date), ("title", .str e.title), ("description", .str e.description)]

/-- The timeline parse of `TimelineViewer.jsx` lines 6–13: `JSON.parse`
on the raw content (no fence stripping); an array is returned as is, any
other JSON value yields no events; a parse error falls back to the text
grammar. -/
def timelineNormalize (content : List Char) : List Json :=
  match jsonParse content with
  | some (.arr xs) => xs
  | some _ => []
  | none => (parseTextTimeline content).map tEventToJson

/-- A text-grammar flashcard as a plain object. -/
def flashcardToJson (c : Flashcard) : Json :=
  .obj [("front", .str c.front), ("back", .str c.back)]

/-- The flashcards parse of `FlashcardsViewer.jsx` lines 9–18: raw
`JSON.parse`, array or nothing, text grammar on failure. -/
def flashcardsNormalize (content : List Char) : List Json :=
  match jsonParse content with
  | some (.arr xs) => xs
  | some _ => []
  | none => (parseTextFlashcards content).map flashcardToJson

/-- Result of the mind map parse of `MindMapViewer.jsx` lines 12–21: the
raw JSON value on parse success (whatever its shape), else the text
grammar's graph. -/
inductive MMNormResult where
  | fromJson (j : Json)
  | fromText (m : MindMap)

/-- The mind map parse: raw `JSON.parse`, no fence stripping, no shape
check. -/
def mindMapNormalize (content : List Char) : MMNormResult :=
  match jsonParse content with
  | some j => .fromJson j
  | none => .fromText (parseTextMindMap content)

/-! ## Theorems -/

theorem digitChr_toNat_sub {d : Nat} (h : d < 10) : (digitChr d).toNat - 48 = d := by
  interval_cases d <;> rfl

theorem digitsVal_append_singleton (l : List Char) (c : Char) :
    digitsVal (l ++ [c]) = digitsVal l * 10 + (c.toNat - 48) := by
  simp [digitsVal, List.foldl_append]

theorem digitsVal_go (l : List Char) (a : Nat) :
    l.foldl (fun a c => a * 10 + (c.toNat - 48)) a =
      a * 10 ^ l.length + digitsVal l := by
  induction l generalizing a with
  | nil => simp [digitsVal]
  | cons c cs ih =>
    simp only [List.foldl_cons, digitsVal] at *
    rw [ih, ih (a := 0 * 10 + (c.toNat - 48))]
    simp only [List.length_cons, pow_succ]
    ring

theorem digitsVal_decDigits {f n : Nat} (h : n < f) : digitsVal (decDigits f n) = n := by
  induction f generalizing n with
  | zero => omega
  | succ f ih =>
    by_cases h10 : n < 10
    · simp [decDigits, h10, digitsVal, digitChr_toNat_sub h10]
    · have hdiv : n / 10 < n := Nat.div_lt_self (by omega) (by omega)
      have hfuel : n / 10 < f := by omega
      rw [decDigits, if_neg h10, digitsVal_append_singleton, ih hfuel,
        digitChr_toNat_sub (Nat.mod_lt _ (by omega))]
      omega

theorem digitsVal_decOfNat (n : Nat) : digitsVal (decOfNat n) = n :=
  digitsVal_decDigits (by omega)

theorem decOfNat_inj {m n : Nat} (h : decOfNat m = decOfNat n) : m = n := by
  have hm := digitsVal_decOfNat m
  rw [h, digitsVal_decOfNat] at hm
  omega

theorem mkNodeId_inj {m n : Nat} (h : mkNodeId m = mkNodeId n) : m = n := by
  apply decOfNat_inj
  have h' : "node-".data ++ decOfNat m = "node-".data ++ decOfNat n := by
    simpa [mkNodeId] using congrArg String.data h
  exact List.append_cancel_left h'

theorem mkNodeId_ne {m n : Nat} (h : m ≠ n) : mkNodeId m ≠ mkNodeId n :=
  fun he => h (mkNodeId_inj he)

/-! ## Graph well-formedness of the outline parser (all inputs)

Invariant carried through the `forEach` fold: the node-id counter equals the
number of nodes, ids are `node-0 … node-(n-1)` in parse order, every stack
entry is an existing id, edge endpoints are existing ids, and edge targets
are pairwise distinct (each step adds at most one edge, targeting the node
created in that step). -/

/-- Entries of the JavaScript array after `arr[i] = v` are old entries,
holes, or the new value. -/
theorem setStack_mem {st : List (Option String)} {i : Nat} {v : String} :
    ∀ o ∈ setStack st i v, o ∈ st ∨ o = none ∨ o = some v := by
  intro o ho
  unfold setStack at ho
  split at ho
  · rcases List.mem_or_eq_of_mem_set ho with h | h
    · exact Or.inl h
    · exact Or.inr (Or.inr h)
  · rcases List.mem_append.1 ho with h | h
    · rcases List.mem_append.1 h with h' | h'
      · exact Or.inl h'
      · exact Or.inr (Or.inl (List.eq_of_mem_replicate h'))
    · rcases List.mem_singleton.1 h with rfl
      exact Or.inr (Or.inr rfl)

/-- A defaulted lookup that returns `some v` witnesses membership. -/
theorem getD_some_mem {st : List (Option String)} {i : Nat} {v : String}
    (h : st.getD i none = some v) : some v ∈ st := by
  rw [List.getD_eq_getD_get?] at h
  cases hg : st.get? i with
  | none => rw [hg] at h; simp at h
  | some o =>
    rw [hg] at h
    simp only [Option.getD_some] at h
    subst h
    exact List.get?_mem hg

/-- Entries of the updated stack are old entries, holes, or the new id. -/
theorem mmStack_mem {stack : List (Option String)} {currentLevel level : Nat} {nid : String} :
    ∀ o ∈ mmStack stack currentLevel level nid, o ∈ stack ∨ o = none ∨ o = some nid := by
  intro o ho
  unfold mmStack at ho
  split at ho
  · rcases List.mem_append.1 ho with h' | h'
    · exact Or.inl h'
    · exact Or.inr (Or.inr (List.mem_singleton.1 h'))
  · split at ho
    · rcases List.mem_append.1 ho with h' | h'
      · exact Or.inl (List.mem_of_mem_take h')
      · exact Or.inr (Or.inr (List.mem_singleton.1 h'))
    · exact setStack_mem o ho

/-- The edge list after one step either is unchanged or gains exactly one
edge, whose source is a `some` entry of the updated stack and whose target
is the new node. -/
theorem mmEdges_cases (edges : List MMEdge) (stack' : List (Option String)) (level : Nat)
    (nid : String) :
    mmEdges edges stack' level nid = edges ∨
      ∃ src, some src ∈ stack' ∧
        mmEdges edges stack' level nid =
          edges ++ [mkMMEdge (mkEdgeId edges.length) src nid] := by
  unfold mmEdges
  split
  · exact Or.inl rfl
  · cases hg : stack'.getD (level - 1) none with
    | none => exact Or.inl rfl
    | some src => exact Or.inr ⟨src, getD_some_mem hg, rfl⟩

theorem mmStep_inv10 (s : MMState) (line : List Char) (h : MMInv10 s) :
    MMInv10 (mmStep s line) := by
  obtain ⟨hn, hid, hstk, hedge, htgt⟩ := h
  unfold mmStep
  by_cases hempty : (cleanMMText line).isEmpty
  · simpa [hempty, MMInv10] using ⟨hn, hid, hstk, hedge, htgt⟩
  simp only [hempty, Bool.false_eq_true, if_false]
  unfold MMInv10
  dsimp only
  set level := mmLevel line with hlevel
  set nid := mkNodeId s.nodeId with hnid
  set stack' := mmStack s.stack s.currentLevel level nid with hstack'
  have hstackinv : ∀ o ∈ stack', ∀ v, o = some v → ∃ k, k < s.nodeId + 1 ∧ v = mkNodeId k := by
    intro o ho v hv
    rcases mmStack_mem o ho with h' | h' | h'
    · obtain ⟨k, hk, hkv⟩ := hstk o h' v hv
      exact ⟨k, by omega, hkv⟩
    · simp [h'] at hv
    · rw [h'] at hv
      exact ⟨s.nodeId, by omega, (Option.some_inj.1 hv).symm⟩
  refine ⟨by simp [hn], ?_, hstackinv, ?_, ?_⟩
  · simp only [MMState.mk.injEq, List.map_append, hid]
    rw [List.range_succ, List.map_append, hn]
    rfl
  · intro e he
    rcases mmEdges_cases s.edges stack' level nid with hc | ⟨src, hsrc, hc⟩ <;> rw [hc] at he
    · obtain ⟨⟨k, hk, hks⟩, ⟨k', hk', hkt⟩⟩ := hedge e he
      exact ⟨⟨k, by omega, hks⟩, ⟨k', by omega, hkt⟩⟩
    · rcases List.mem_append.1 he with he' | he'
      · obtain ⟨⟨k, hk, hks⟩, ⟨k', hk', hkt⟩⟩ := hedge e he'
        exact ⟨⟨k, by omega, hks⟩, ⟨k', by omega, hkt⟩⟩
      · rcases List.mem_singleton.1 he' with rfl
        obtain ⟨k, hk, hks⟩ := hstackinv (some src) hsrc src rfl
        exact ⟨⟨k, hk, hks⟩, ⟨s.nodeId, by omega, rfl⟩⟩
  · rcases mmEdges_cases s.edges stack' level nid with hc | ⟨src, hsrc, hc⟩ <;> rw [hc]
    · exact htgt
    · rw [List.map_append]
      refine List.nodup_append.2 ⟨htgt, List.nodup_singleton _, ?_⟩
      intro t ht ht'
      dsimp only [List.map_cons, List.map_nil] at ht'
      rcases List.mem_singleton.1 ht' with rfl
      obtain ⟨e, he, het⟩ := List.mem_map.1 ht
      obtain ⟨_, ⟨k', hk', hkt⟩⟩ := hedge e he
      have hcontr : mkNodeId k' = mkNodeId s.nodeId := by rw [← hkt, het]; rfl
      exact mkNodeId_ne (by omega : k' ≠ s.nodeId) hcontr

theorem mmFoldl_inv10 (lines : List (List Char)) (s : MMState) (h : MMInv10 s) :
    MMInv10 (lines.foldl mmStep s) := by
  induction lines generalizing s with
  | nil => exact h
  | cons l ls ih => exact ih _ (mmStep_inv10 s l h)

theorem mmInit_inv10 : MMInv10 mmInit := by
  refine ⟨rfl, rfl, ?_, ?_, ?_⟩ <;> simp [mmInit]

/-- Graph well-formedness of the outline parser, for every input: node ids
are `node-0`, `node-1`, … in parse order (hence pairwise distinct), every
edge endpoint is the id of a present node, and no node is the target of
two edges. -/
theorem parseTextMindMap_wellformed (text : List Char) :
    (parseTextMindMap text).nodes.map MMNode.id =
        (List.range (parseTextMindMap text).nodes.length).map mkNodeId ∧
    ((parseTextMindMap text).nodes.map MMNode.id).Nodup ∧
    (∀ e ∈ (parseTextMindMap text).edges,
        e.source ∈ (parseTextMindMap text).nodes.map MMNode.id ∧
        e.target ∈ (parseTextMindMap text).nodes.map MMNode.id) ∧
    ((parseTextMindMap text).edges.map MMEdge.target).Nodup := by
  have hinv := mmFoldl_inv10 ((splitNl text).filter keptLine) mmInit mmInit_inv10
  obtain ⟨hn, hid, _, hedge, htgt⟩ := hinv
  set s := ((splitNl text).filter keptLine).foldl mmStep mmInit with hs
  have horder : ∀ (m : MindMap), m.nodes.map MMNode.id =
      (List.range m.nodes.length).map mkNodeId →
      m.edges = s.edges → (∀ e ∈ s.edges, (∃ k, k < s.nodeId ∧ e.source = mkNodeId k) ∧
        ∃ k, k < s.nodeId ∧ e.target = mkNodeId k) →
      s.nodeId ≤ m.nodes.length →
      m.nodes.map MMNode.id = (List.range m.nodes.length).map mkNodeId ∧
      (m.nodes.map MMNode.id).Nodup ∧
      (∀ e ∈ m.edges, e.source ∈ m.nodes.map MMNode.id ∧
        e.target ∈ m.nodes.map MMNode.id) ∧
      (m.edges.map MMEdge.target).Nodup := by
    intro m hmid hme he hle
    refine ⟨hmid, ?_, ?_, by rw [hme]; exact htgt⟩
    · rw [hmid]
      exact List.Nodup.map (fun a b => mkNodeId_inj) (List.nodup_range _)
    · intro e hem
      rw [hme] at hem
      obtain ⟨⟨k, hk, hks⟩, ⟨k', hk', hkt⟩⟩ := he e hem
      rw [hmid]
      constructor
      · rw [hks]; exact List.mem_map_of_mem _ (List.mem_range.2 (by omega))
      · rw [hkt]; exact List.mem_map_of_mem _ (List.mem_range.2 (by omega))
  simp only [parseTextMindMap]
  rw [← hs]
  by_cases hemp : s.nodes.isEmpty
  · simp only [hemp, if_true]
    have hnil : s.nodes = [] := List.isEmpty_iff.1 hemp
    have hzero : s.nodeId = 0 := by rw [hn, hnil]; rfl
    refine horder ⟨s.nodes ++ [mmDefaultNode], s.edges⟩ ?_ rfl hedge ?_
    · show (s.nodes ++ [mmDefaultNode]).map MMNode.id =
        (List.range (s.nodes ++ [mmDefaultNode]).length).map mkNodeId
      rw [hnil]
      decide
    · show s.nodeId ≤ (s.nodes ++ [mmDefaultNode]).length
      rw [hzero]
      omega
  · simp only [hemp, Bool.false_eq_true, if_false]
    have hid' : s.nodes.map MMNode.id = (List.range s.nodes.length).map mkNodeId := by
      rw [← hn]; exact hid
    exact horder ⟨s.nodes, s.edges⟩ hid' rfl hedge (le_of_eq hn)

theorem lastIdxWith_concat (ls : List Nat) (l d : Nat) :
    lastIdxWith (ls ++ [l]) d = if l = d then some ls.length else lastIdxWith ls d := by
  induction ls with
  | nil => by_cases h : l = d <;> simp [lastIdxWith, h]
  | cons a as ih =>
    simp only [List.cons_append]
    rw [lastIdxWith, ih, lastIdxWith]
    by_cases h : l = d <;> simp [h]

theorem lastIdxWith_eq_none {ls : List Nat} {d : Nat} (h : lastIdxWith ls d = none) :
    ∀ i, i < ls.length → ls.get? i ≠ some d := by
  induction ls with
  | nil => intro i hi; simp at hi
  | cons l rest ih =>
    intro i hi
    unfold lastIdxWith at h
    cases hr : lastIdxWith rest d with
    | some j => rw [hr] at h; simp at h
    | none =>
      rw [hr] at h
      have hld : l ≠ d := by
        by_contra hc
        rw [if_pos hc] at h
        exact Option.noConfusion h
      cases i with
      | zero => simpa using fun hc => hld hc
      | succ i' =>
        simp only [List.get?_cons_succ]
        exact ih hr i' (by simpa using hi)

theorem lastIdxWith_spec {ls : List Nat} {d j : Nat} (h : lastIdxWith ls d = some j) :
    j < ls.length ∧ ls.get? j = some d ∧
      ∀ i, j < i → i < ls.length → ls.get? i ≠ some d := by
  induction ls generalizing j with
  | nil => simp [lastIdxWith] at h
  | cons l rest ih =>
    unfold lastIdxWith at h
    cases hr : lastIdxWith rest d with
    | some j' =>
      rw [hr] at h
      obtain rfl : j' + 1 = j := Option.some_inj.1 h
      obtain ⟨h1, h2, h3⟩ := ih hr
      refine ⟨by simpa using h1, by simpa using h2, ?_⟩
      intro i hji hi
      cases i with
      | zero => omega
      | succ i' =>
        simp only [List.get?_cons_succ]
        exact h3 i' (by omega) (by simpa using hi)
    | none =>
      rw [hr] at h
      by_cases hld : l = d
      · rw [if_pos hld] at h
        obtain rfl : (0 : Nat) = j := Option.some_inj.1 h
        refine ⟨by simp, by simpa using hld, ?_⟩
        intro i hji hi
        cases i with
        | zero => omega
        | succ i' =>
          simp only [List.get?_cons_succ]
          exact lastIdxWith_eq_none hr i' (by simpa using hi)
      · rw [if_neg hld] at h
        exact Option.noConfusion h

theorem lastIdxWith_isSome_of_get? {ls : List Nat} {d i : Nat} (h : ls.get? i = some d) :
    ∃ j, lastIdxWith ls d = some j := by
  induction ls generalizing i with
  | nil => simp at h
  | cons l rest ih =>
    unfold lastIdxWith
    cases hr : lastIdxWith rest d with
    | some j => exact ⟨j + 1, rfl⟩
    | none =>
      cases i with
      | zero =>
        simp only [List.get?_cons_zero, Option.some_inj] at h
        exact ⟨0, by rw [if_pos h]⟩
      | succ i' =>
        simp only [List.get?_cons_succ] at h
        obtain ⟨j, hj⟩ := ih h
        rw [hr] at hj
        exact Option.noConfusion hj

theorem stairB_extract {y : Nat} {ys : List Nat} :
    ∀ (xs : List Nat) (prev : Nat), stairB prev (xs ++ y :: ys) = true →
      (prev :: xs).getLast (by simp) ≤ y ∧ y ≤ (prev :: xs).getLast (by simp) + 1 := by
  intro xs
  induction xs with
  | nil =>
    intro prev h
    simp only [List.nil_append] at h
    unfold stairB at h
    simp only [Bool.and_eq_true, decide_eq_true_eq] at h
    simpa using ⟨h.1.1, h.1.2⟩
  | cons x xs' ih =>
    intro prev h
    simp only [List.cons_append] at h
    unfold stairB at h
    simp only [Bool.and_eq_true] at h
    have hih := ih x h.2
    rw [List.getLast_cons_cons]
    exact hih

theorem take_append_of_le {α : Type} {l₁ l₂ : List α} {n : Nat} (h : n ≤ l₁.length) :
    (l₁ ++ l₂).take n = l₁.take n := by
  rw [List.take_append_eq_append_take, Nat.sub_eq_zero_of_le h, List.take_zero, List.append_nil]

theorem staircase_extract {xs : List Nat} {y : Nat} {ys : List Nat}
    (h : StaircaseLevels (xs ++ y :: ys) = true) :
    (xs = [] → y = 0) ∧
      ∀ lx, xs.getLast? = some lx → lx ≤ y ∧ y ≤ lx + 1 := by
  cases xs with
  | nil =>
    constructor
    · intro _
      unfold StaircaseLevels at h
      simp only [List.nil_append, Bool.and_eq_true, beq_iff_eq] at h
      exact h.1
    · intro lx hlx
      simp at hlx
  | cons x xs' =>
    constructor
    · intro hc; exact absurd hc (by simp)
    · intro lx hlx
      unfold StaircaseLevels at h
      simp only [List.cons_append, Bool.and_eq_true, beq_iff_eq] at h
      have hex := stairB_extract xs' x h.2
      have hlast : (x :: xs').getLast (by simp) = lx := by
        have := List.getLast?_eq_getLast (x :: xs') (by simp)
        rw [hlx] at this
        exact (Option.some_inj.1 this.symm)
      rw [hlast] at hex
      exact hex

theorem levelsOf_concat (done : List (Nat × List Char)) (lv : Nat) (t : List Char) :
    levelsOf (done ++ [(lv, t)]) = levelsOf done ++ [lv] := by
  simp [levelsOf]

theorem lastLevel_concat (done : List (Nat × List Char)) (lv : Nat) (t : List Char) :
    lastLevel (done ++ [(lv, t)]) = lv := by
  rw [lastLevel, levelsOf_concat, List.getLast?_concat]
  rfl

theorem filter_target_nil {edges : List MMEdge} {x : String}
    (h : ∀ e ∈ edges, e.target ≠ x) : edges.filter (fun e' => e'.target == x) = [] := by
  rw [List.filter_eq_nil_iff]
  intro e he
  simp [h e he]

theorem filter_target_concat_ne {edges : List MMEdge} {e : MMEdge} {x : String}
    (hne : e.target ≠ x) :
    (edges ++ [e]).filter (fun e' => e'.target == x) =
      edges.filter (fun e' => e'.target == x) := by
  rw [List.filter_append]
  have : [e].filter (fun e' => e'.target == x) = [] :=
    filter_target_nil (by intro e' he'; rw [List.mem_singleton.1 he']; exact hne)
  rw [this, List.append_nil]

/-- Extending the ghost with a depth-0 item leaves the edge bookkeeping
valid with an unchanged edge list. -/
theorem EdgesC2_extend_nil {done : List (Nat × List Char)} {edges : List MMEdge}
    {t : List Char} (h : EdgesC2 done edges) :
    EdgesC2 (done ++ [(0, t)]) edges := by
  obtain ⟨hb, hk⟩ := h
  constructor
  · intro e he
    obtain ⟨k, hlt, ht⟩ := hb e he
    exact ⟨k, by simp; omega, ht⟩
  · intro k hklt
    rw [List.length_append, List.length_singleton] at hklt
    rcases Nat.lt_or_ge k done.length with hk' | hk'
    · have hgd : (levelsOf (done ++ [(0, t)])).getD k 0 = (levelsOf done).getD k 0 := by
        rw [levelsOf_concat]
        exact List.getD_append _ _ _ _ (by simpa [levelsOf] using hk')
      have htk : (levelsOf (done ++ [(0, t)])).take k = (levelsOf done).take k := by
        rw [levelsOf_concat]
        exact take_append_of_le (by simp [levelsOf]; omega)
      rw [hgd, htk]
      exact hk k hk'
    · have hkeq : k = done.length := by omega
      subst hkeq
      have hgd : (levelsOf (done ++ [(0, t)])).getD done.length 0 = 0 := by
        rw [levelsOf_concat, List.getD_append_right _ _ _ _ (by simp [levelsOf])]
        simp [levelsOf]
      constructor
      · intro _
        refine filter_target_nil ?_
        intro e he
        obtain ⟨k', hk'lt, ht⟩ := hb e he
        rw [ht]
        exact mkNodeId_ne (by omega)
      · intro lv hlv
        rw [hgd] at hlv
        omega

/-- Extending the ghost with a depth-`lv+1` item together with the edge the
parser creates (source: most recent node at depth `lv`) keeps the edge
bookkeeping valid. -/
theorem EdgesC2_extend_edge {done : List (Nat × List Char)} {edges : List MMEdge}
    {lv : Nat} {t : List Char} {j : Nat} {eid : String}
    (h : EdgesC2 done edges)
    (hj : lastIdxWith (levelsOf done) lv = some j) :
    EdgesC2 (done ++ [(lv + 1, t)])
      (edges ++ [mkMMEdge eid (mkNodeId j) (mkNodeId done.length)]) := by
  obtain ⟨hb, hk⟩ := h
  constructor
  · intro e he
    rcases List.mem_append.1 he with he' | he'
    · obtain ⟨k, hlt, ht⟩ := hb e he'
      exact ⟨k, by simp; omega, ht⟩
    · rw [List.mem_singleton.1 he']
      exact ⟨done.length, by simp, rfl⟩
  · intro k hklt
    rw [List.length_append, List.length_singleton] at hklt
    rcases Nat.lt_or_ge k done.length with hk' | hk'
    · have hgd : (levelsOf (done ++ [(lv + 1, t)])).getD k 0 = (levelsOf done).getD k 0 := by
        rw [levelsOf_concat]
        exact List.getD_append _ _ _ _ (by simpa [levelsOf] using hk')
      have htk : (levelsOf (done ++ [(lv + 1, t)])).take k = (levelsOf done).take k := by
        rw [levelsOf_concat]
        exact take_append_of_le (by simp [levelsOf]; omega)
      have hfil :
          ((edges ++ [mkMMEdge eid (mkNodeId j) (mkNodeId done.length)]).filter
            (fun e' => e'.target == mkNodeId k)) =
          edges.filter (fun e' => e'.target == mkNodeId k) :=
        filter_target_concat_ne (mkNodeId_ne (by omega))
      rw [hgd, htk, hfil]
      exact hk k hk'
    · have hkeq : k = done.length := by omega
      subst hkeq
      have hgd : (levelsOf (done ++ [(lv + 1, t)])).getD done.length 0 = lv + 1 := by
        rw [levelsOf_concat, List.getD_append_right _ _ _ _ (by simp [levelsOf])]
        simp [levelsOf]
      have htk : (levelsOf (done ++ [(lv + 1, t)])).take done.length = levelsOf done := by
        rw [levelsOf_concat]
        exact List.take_left' (by simp [levelsOf])
      have hfilold : edges.filter (fun e' => e'.target == mkNodeId done.length) = [] := by
        refine filter_target_nil ?_
        intro e he
        obtain ⟨k', hk'lt, ht⟩ := hb e he
        rw [ht]
        exact mkNodeId_ne (by omega)
      have hfil :
          ((edges ++ [mkMMEdge eid (mkNodeId j) (mkNodeId done.length)]).filter
            (fun e' => e'.target == mkNodeId done.length)) =
          [mkMMEdge eid (mkNodeId j) (mkNodeId done.length)] := by
        rw [List.filter_append, hfilold, List.nil_append]
        simp [List.filter, mkMMEdge]
      constructor
      · intro habs
        rw [hgd] at habs
        omega
      · intro lv' hlv'
        rw [hgd] at hlv'
        obtain rfl : lv = lv' := by omega
        refine ⟨j, by rw [htk]; exact hj, ?_⟩
        rw [hfil]
        simp [mkMMEdge]

/-- A line with an empty cleaned label leaves the invariant untouched. -/
theorem mmStep_skip {done : List (Nat × List Char)} {s : MMState} {line : List Char}
    (hinv : MMInvC2 done s) (hemp : (cleanMMText line).isEmpty = true) :
    MMInvC2 done (mmStep s line) := by
  have hstep : mmStep s line = { s with lineIdx := s.lineIdx + 1 } := by
    simp [mmStep, hemp]
  rw [hstep]
  exact hinv

/-- Invariant preservation for an emitting step, under the staircase
constraints relating the new level to the previous one. -/
theorem mmStep_invC2 {done : List (Nat × List Char)} {s : MMState} {line : List Char}
    (hinv : MMInvC2 done s)
    (hne : (cleanMMText line).isEmpty = false)
    (h0 : done = [] → mmLevel line = 0)
    (h1 : ∀ lx, (levelsOf done).getLast? = some lx → lx ≤ mmLevel line ∧ mmLevel line ≤ lx + 1) :
    MMInvC2 (done ++ [(mmLevel line, cleanMMText line)]) (mmStep s line) := by
  obtain ⟨hnid, hnlen, hempcase, hnempcase, hedges⟩ := hinv
  have hstep : mmStep s line = {
      nodes := s.nodes ++ [mmNode (mmLevel line) s.lineIdx s.nodeId (cleanMMText line)],
      edges := mmEdges s.edges
        (mmStack s.stack s.currentLevel (mmLevel line) (mkNodeId s.nodeId))
        (mmLevel line) (mkNodeId s.nodeId),
      stack := mmStack s.stack s.currentLevel (mmLevel line) (mkNodeId s.nodeId),
      currentLevel := mmLevel line, nodeId := s.nodeId + 1, lineIdx := s.lineIdx + 1 } := by
    simp only [mmStep, hne, Bool.false_eq_true, if_false]
  rw [hstep]
  set lv := mmLevel line with hlvdef
  set t := cleanMMText line with htdef
  rcases eq_or_ne done [] with hd | hd
  · -- very first emitted node: level 0, fresh stack, no edge
    obtain ⟨hstk0, hcl0, hed0⟩ := hempcase hd
    have hlv0 : lv = 0 := h0 hd
    have hn0 : s.nodeId = 0 := by rw [hnid, hd]; rfl
    have hstack : mmStack s.stack s.currentLevel lv (mkNodeId s.nodeId) =
        [some (mkNodeId 0)] := by
      rw [hstk0, hcl0, hlv0, hn0, mmStack, setStack]
      norm_num
    have hedge : mmEdges s.edges
        (mmStack s.stack s.currentLevel lv (mkNodeId s.nodeId)) lv (mkNodeId s.nodeId) =
        s.edges := by
      rw [mmEdges, hlv0]
      norm_num
    subst hd
    refine ⟨by simp [hnid], by simp [hnlen], by intro hc; simp at hc, ?_, ?_⟩
    · intro _
      dsimp only
      have hll : lastLevel ([] ++ [(lv, t)]) = lv := lastLevel_concat [] lv t
      refine ⟨by rw [hll], ?_, ?_⟩
      · rw [hstack, hlv0]
        rfl
      · intro d hdle
        rw [hll, hlv0] at hdle
        obtain rfl : d = 0 := by omega
        refine ⟨0, ?_, ?_⟩
        · rw [List.nil_append]
          show lastIdxWith (levelsOf [(lv, t)]) 0 = some 0
          rw [hlv0]
          rfl
        · rw [hstack]
          rfl
    · rw [hedge, hed0, List.nil_append]
      constructor
      · intro e he
        simp at he
      · intro k hk
        simp only [List.length_singleton] at hk
        obtain rfl : k = 0 := by omega
        constructor
        · intro _
          rfl
        · intro lv' hlv'
          rw [hlv0] at hlv'
          simp [levelsOf] at hlv' 
  · -- a later node: previous level L, new level L or L+1
    obtain ⟨hcl, hsl, hslot⟩ := hnempcase hd
    have hlne : levelsOf done ≠ [] := by
      simpa [levelsOf] using hd
    have hgl : (levelsOf done).getLast? = some (lastLevel done) := by
      rw [List.getLast?_eq_getLast _ hlne, lastLevel, List.getLast?_eq_getLast _ hlne]
      rfl
    obtain ⟨hL1, hL2⟩ := h1 _ hgl
    have hdlen : done.length = (levelsOf done).length := by simp [levelsOf]
    have hnid' : s.nodeId = done.length := hnid
    have hllc : lastLevel (done ++ [(lv, t)]) = lv := lastLevel_concat done lv t
    have hlvlc : levelsOf (done ++ [(lv, t)]) = levelsOf done ++ [lv] := levelsOf_concat done lv t
    have hne' : done ++ [(lv, t)] ≠ [] := by simp
    rcases (by omega : lv = lastLevel done ∨ lv = lastLevel done + 1) with hsame | hup
    · -- same level: in-place replacement of the stack slot
      have hlvlt : lv < s.stack.length := by omega
      have hstack : mmStack s.stack s.currentLevel lv (mkNodeId s.nodeId) =
          s.stack.set lv (some (mkNodeId s.nodeId)) := by
        rw [mmStack, hcl, hsame]
        simp only [Nat.lt_irrefl, if_false]
        rw [setStack, if_pos (by omega)]
      have hstC2 : StackC2 (done ++ [(lv, t)]) (s.stack.set lv (some (mkNodeId s.nodeId))) := by
        intro d hdle
        rw [hllc] at hdle
        rcases eq_or_lt_of_le hdle with hdeq | hdlt
        · subst hdeq
          refine ⟨done.length, ?_, ?_⟩
          · rw [hlvlc, lastIdxWith_concat, if_pos rfl, ← hdlen]
          · rw [List.get?_set_eq_of_lt _ (by omega), hnid']
        · obtain ⟨j, hj1, hj2⟩ := hslot d (by omega)
          refine ⟨j, ?_, ?_⟩
          · rw [hlvlc, lastIdxWith_concat, if_neg (by omega)]
            exact hj1
          · rw [List.get?_set_ne _ _ (by omega)]
            exact hj2
      refine ⟨by simp [hnid], by simp [hnlen], by intro hc; simp at hc, ?_, ?_⟩
      · intro _
        dsimp only
        rw [hllc, hstack]
        exact ⟨rfl, by rw [List.length_set]; omega, hstC2⟩
      · rw [hstack]
        by_cases hlvz : lv = 0
        · have hedge : mmEdges s.edges (s.stack.set lv (some (mkNodeId s.nodeId))) lv
              (mkNodeId s.nodeId) = s.edges := by
            rw [mmEdges, hlvz]
            norm_num
          rw [hedge, hlvz]
          exact EdgesC2_extend_nil hedges
        · obtain ⟨m, hm⟩ := Nat.exists_eq_succ_of_ne_zero hlvz
          obtain ⟨j, hj1, hj2⟩ := hslot m (by omega)
          have hget : (s.stack.set lv (some (mkNodeId s.nodeId))).getD (lv - 1) none =
              some (mkNodeId j) := by
            rw [List.getD_eq_getD_get?, List.get?_set_ne _ _ (by omega)]
            rw [show lv - 1 = m by omega, hj2]
            rfl
          have hedge : mmEdges s.edges (s.stack.set lv (some (mkNodeId s.nodeId))) lv
              (mkNodeId s.nodeId) =
              s.edges ++ [mkMMEdge (mkEdgeId s.edges.length) (mkNodeId j)
                (mkNodeId s.nodeId)] := by
            rw [mmEdges, hget]
            simp [hm]
          rw [hedge, hm, hnid']
          exact EdgesC2_extend_edge hedges (by rw [show m = lv - 1 by omega] at hj1 ⊢; exact hj1)
    · -- one level deeper: push on the stack
      have hstack : mmStack s.stack s.currentLevel lv (mkNodeId s.nodeId) =
          s.stack ++ [some (mkNodeId s.nodeId)] := by
        rw [mmStack, if_pos (by omega)]
      have hstC2 : StackC2 (done ++ [(lv, t)]) (s.stack ++ [some (mkNodeId s.nodeId)]) := by
        intro d hdle
        rw [hllc] at hdle
        rcases eq_or_lt_of_le hdle with hdeq | hdlt
        · subst hdeq
          refine ⟨done.length, ?_, ?_⟩
          · rw [hlvlc, lastIdxWith_concat, if_pos rfl, ← hdlen]
          · rw [show lv = s.stack.length by omega, List.get?_concat_length, hnid']
        · obtain ⟨j, hj1, hj2⟩ := hslot d (by omega)
          refine ⟨j, ?_, ?_⟩
          · rw [hlvlc, lastIdxWith_concat, if_neg (by omega)]
            exact hj1
          · rw [List.get?_append (by omega)]
            exact hj2
      obtain ⟨j, hj1, hj2⟩ := hslot (lastLevel done) (le_refl _)
      have hget : (s.stack ++ [some (mkNodeId s.nodeId)]).getD (lv - 1) none =
          some (mkNodeId j) := by
        rw [List.getD_eq_getD_get?, List.get?_append (by omega)]
        rw [show lv - 1 = lastLevel done by omega, hj2]
        rfl
      have hedge : mmEdges s.edges (s.stack ++ [some (mkNodeId s.nodeId)]) lv
          (mkNodeId s.nodeId) =
          s.edges ++ [mkMMEdge (mkEdgeId s.edges.length) (mkNodeId j) (mkNodeId s.nodeId)] := by
        rw [mmEdges, hget]
        simp [hup]
      refine ⟨by simp [hnid], by simp [hnlen], by intro hc; simp at hc, ?_, ?_⟩
      · intro _
        dsimp only
        rw [hllc, hstack]
        refine ⟨rfl, by rw [List.length_append, List.length_singleton]; omega, hstC2⟩
      · rw [hstack, hedge, hup, hnid']
        exact EdgesC2_extend_edge hedges hj1

theorem mmInit_invC2 : MMInvC2 [] mmInit := by
  refine ⟨rfl, rfl, fun _ => ⟨rfl, rfl, rfl⟩, fun hc => absurd rfl hc, ?_, ?_⟩
  · intro e he
    simp [mmInit] at he
  · intro k hk
    simp at hk

theorem mmFoldl_invC2 (lines : List (List Char)) :
    ∀ (done : List (Nat × List Char)) (s : MMState),
    MMInvC2 done s →
    StaircaseLevels (levelsOf (done ++ lines.filterMap itemOf)) = true →
    MMInvC2 (done ++ lines.filterMap itemOf) (lines.foldl mmStep s) := by
  induction lines with
  | nil =>
    intro done s h _
    simpa using h
  | cons l ls ih =>
    intro done s h hst
    cases hio : itemOf l with
    | none =>
      have hemp : (cleanMMText l).isEmpty = true := by
        unfold itemOf at hio
        by_cases hc : (cleanMMText l).isEmpty
        · exact hc
        · rw [if_neg hc] at hio
          exact absurd hio (by simp)
      simp only [List.filterMap_cons, hio] at hst ⊢
      rw [List.foldl_cons]
      exact ih done (mmStep s l) (mmStep_skip h hemp) hst
    | some p =>
      obtain ⟨lv, t⟩ := p
      have hne : (cleanMMText l).isEmpty = false := by
        unfold itemOf at hio
        by_cases hc : (cleanMMText l).isEmpty
        · rw [if_pos hc] at hio
          exact absurd hio (by simp)
        · simpa using hc
      have hpair : lv = mmLevel l ∧ t = cleanMMText l := by
        unfold itemOf at hio
        rw [if_neg (by simp [hne])] at hio
        have := Option.some_inj.1 hio
        exact ⟨congrArg Prod.fst this.symm, congrArg Prod.snd this.symm⟩
      obtain ⟨hlv, ht⟩ := hpair
      subst hlv
      subst ht
      simp only [List.filterMap_cons, hio] at hst ⊢
      rw [List.foldl_cons]
      have hstflat : StaircaseLevels
          (levelsOf done ++ mmLevel l :: levelsOf (ls.filterMap itemOf)) = true := by
        have : levelsOf (done ++ (mmLevel l, cleanMMText l) :: ls.filterMap itemOf) =
            levelsOf done ++ mmLevel l :: levelsOf (ls.filterMap itemOf) := by
          simp [levelsOf]
        rw [← this]
        exact hst
      have hextract := staircase_extract hstflat
      have h0 : done = [] → mmLevel l = 0 := by
        intro hdone
        exact hextract.1 (by simp [levelsOf, hdone])
      have h1 : ∀ lx, (levelsOf done).getLast? = some lx →
          lx ≤ mmLevel l ∧ mmLevel l ≤ lx + 1 := hextract.2
      have hst' : StaircaseLevels
          (levelsOf ((done ++ [(mmLevel l, cleanMMText l)]) ++ ls.filterMap itemOf)) = true := by
        rw [List.append_assoc]
        simpa using hst
      have hstep := mmStep_invC2 h hne h0 h1
      have := ih (done ++ [(mmLevel l, cleanMMText l)]) (mmStep s l) hstep hst'
      rw [List.append_assoc] at this
      simpa using this

theorem parseTextMindMap_edges_eq (text : List Char) :
    (parseTextMindMap text).edges =
      (((splitNl text).filter keptLine).foldl mmStep mmInit).edges := by
  simp only [parseTextMindMap]
  split <;> rfl

/-- On staircase inputs, the outline parser attaches every depth-`lv+1`
node to the nearest preceding depth-`lv` node by exactly one edge, and
depth-0 nodes have no incoming edge. -/
theorem parseTextMindMap_staircase_parent (text : List Char)
    (hst : StaircaseLevels (levelsOf (mmItems text)) = true)
    (k : Nat) (hk : k < (mmItems text).length) :
    ((levelsOf (mmItems text)).getD k 0 = 0 →
        (parseTextMindMap text).edges.filter (fun e => e.target == mkNodeId k) = []) ∧
    ∀ lv, (levelsOf (mmItems text)).getD k 0 = lv + 1 →
      ∃ j, j < k ∧ (levelsOf (mmItems text)).getD j 0 = lv ∧
        (∀ i, j < i → i < k → (levelsOf (mmItems text)).getD i 0 ≠ lv) ∧
        ((parseTextMindMap text).edges.filter (fun e => e.target == mkNodeId k)).map
          MMEdge.source = [mkNodeId j] := by
  have hinv := mmFoldl_invC2 ((splitNl text).filter keptLine) [] mmInit mmInit_invC2
    (by simpa using hst)
  rw [List.nil_append] at hinv
  rw [show List.filterMap itemOf ((splitNl text).filter keptLine) = mmItems text from rfl]
    at hinv
  obtain ⟨-, -, -, -, hb, hkk⟩ := hinv
  have hlen : (levelsOf (mmItems text)).length = (mmItems text).length := by
    simp [levelsOf]
  have hkk' := hkk k hk
  rw [parseTextMindMap_edges_eq]
  refine ⟨hkk'.1, ?_⟩
  intro lv hlv
  obtain ⟨j, hj1, hj2⟩ := hkk'.2 lv hlv
  obtain ⟨hjlen, hjget, hjafter⟩ := lastIdxWith_spec hj1
  have htklen : ((levelsOf (mmItems text)).take k).length = k := by
    rw [List.length_take]
    omega
  have hjk : j < k := by omega
  have hjget' : (levelsOf (mmItems text)).get? j = some lv := by
    rw [List.get?_eq_getElem?] at hjget ⊢
    rw [List.getElem?_take_of_lt hjk] at hjget
    exact hjget
  refine ⟨j, hjk, ?_, ?_, hj2⟩
  · rw [List.getD_eq_getD_get?, hjget']
    rfl
  · intro i hji hik habs
    have hilen : i < (levelsOf (mmItems text)).length := by omega
    have hgi : (levelsOf (mmItems text)).get? i = some lv := by
      rw [List.get?_eq_get hilen]
      rw [List.getD_eq_get _ _ hilen] at habs
      rw [habs]
    have : ((levelsOf (mmItems text)).take k).get? i = some lv := by
      rw [List.get?_eq_getElem?, List.getElem?_take_of_lt hik, ← List.get?_eq_getElem?]
      exact hgi
    exact hjafter i hji (by omega) this

/-! ### Bounds on the text grammar's `correctAnswer` -/

theorem letterScan_isOptLetter {l : List Char} :
    ∀ {prev : Option Char} {c : Char}, letterScan prev l = some c → isOptLetter c = true := by
  induction l with
  | nil => intro prev c h; simp [letterScan] at h
  | cons a rest ih =>
    intro prev c h
    unfold letterScan at h
    split at h
    · rename_i hc
      obtain rfl : a = c := Option.some_inj.1 h
      simp only [Bool.and_eq_true] at hc
      exact hc.1.1
    · exact ih h

theorem optLetter_idx_bounds {c : Char} (h : isOptLetter c = true) :
    0 ≤ (c.toUpper.toNat : Int) - 65 ∧ (c.toUpper.toNat : Int) - 65 ≤ 3 := by
  unfold isOptLetter at h
  simp only [Bool.or_eq_true, beq_iff_eq] at h
  rcases h with ((((((h | h) | h) | h) | h) | h) | h) | h <;> subst h <;> constructor <;> decide

/-- The running `correctAnswer` is `-1` or a letter index in `[0, 3]`. -/
theorem quizLineStep_ca (acc : QAcc) (line : List Char)
    (h : acc.correctAnswer = -1 ∨ (0 ≤ acc.correctAnswer ∧ acc.correctAnswer ≤ 3)) :
    (quizLineStep acc line).correctAnswer = -1 ∨
      (0 ≤ (quizLineStep acc line).correctAnswer ∧ (quizLineStep acc line).correctAnswer ≤ 3) := by
  unfold quizLineStep
  dsimp only
  split
  · exact h
  split
  · exact h
  split
  · split
    · rename_i c hc
      right
      exact optLetter_idx_bounds (letterScan_isOptLetter hc)
    · exact h
  split
  · exact h
  · exact h

theorem quizFold_ca (lines : List (List Char)) :
    ∀ (acc : QAcc),
      (acc.correctAnswer = -1 ∨ (0 ≤ acc.correctAnswer ∧ acc.correctAnswer ≤ 3)) →
      ((lines.foldl quizLineStep acc).correctAnswer = -1 ∨
        (0 ≤ (lines.foldl quizLineStep acc).correctAnswer ∧
          (lines.foldl quizLineStep acc).correctAnswer ≤ 3)) := by
  induction lines with
  | nil => intro acc h; exact h
  | cons l ls ih => intro acc h; exact ih _ (quizLineStep_ca acc l h)

theorem parseQuizSection_bounds {sec : List Char} {q : QuizQuestion}
    (h : parseQuizSection sec = some q) :
    0 ≤ q.correctAnswer ∧ q.correctAnswer ≤ 3 ∧ 2 ≤ q.options.length := by
  simp only [parseQuizSection] at h
  split at h
  · exact Option.noConfusion h
  · split at h
    · rename_i hcond
      simp only [Bool.and_eq_true, decide_eq_true_eq] at hcond
      obtain rfl : _ = q := Option.some_inj.1 h
      have hca := quizFold_ca ((splitNl sec).filter keptLine) ⟨[], [], -1, []⟩ (Or.inl rfl)
      dsimp only
      refine ⟨?_, ?_, ?_⟩
      · rcases hca with hca | hca
        · rw [hca]; simp
        · rw [if_neg (by omega)]; exact hca.1
      · rcases hca with hca | hca
        · rw [hca]; simp
        · rw [if_neg (by omega)]; exact hca.2
      · rw [List.length_map]
        exact hcond.2
    · exact Option.noConfusion h

/-- Every question emitted by the quiz text grammar has at least two
options, and a `correctAnswer` that is a letter index between 0 and 3
(not necessarily below the number of options). -/
theorem parseTextQuiz_bounds (text : List Char) :
    ∀ q ∈ parseTextQuiz text,
      0 ≤ q.correctAnswer ∧ q.correctAnswer ≤ 3 ∧ 2 ≤ q.options.length := by
  intro q hq
  unfold parseTextQuiz at hq
  obtain ⟨sec, _, hsec⟩ := List.mem_filterMap.1 hq
  exact parseQuizSection_bounds hsec

theorem quizStep_score_inv (qs : List QuizQuestion) (s : QuizSessionState) (op : QuizOp)
    (h : s.answered.Nodup ∧ s.score = s.answered.length) :
    (quizStep qs s op).answered.Nodup ∧
      (quizStep qs s op).score = (quizStep qs s op).answered.length := by
  obtain ⟨hnd, hsc⟩ := h
  cases op with
  | select i =>
    simp only [quizStep]
    split <;> exact ⟨hnd, hsc⟩
  | submit =>
    simp only [quizStep]
    cases s.selectedAnswer with
    | none => exact ⟨hnd, hsc⟩
    | some sel =>
      dsimp only
      cases qs.get? s.currentIndex with
      | none => exact ⟨hnd, hsc⟩
      | some q =>
        dsimp only
        split
        · rename_i hcond
          constructor
          · dsimp only
            rw [List.nodup_append]
            refine ⟨hnd, List.nodup_singleton _, ?_⟩
            intro a ha hb
            rw [List.mem_singleton.1 hb] at ha
            exact hcond.2 ha
          · dsimp only
            simp [hsc]
        · exact ⟨hnd, hsc⟩
  | next =>
    simp only [quizStep]
    split <;> exact ⟨hnd, hsc⟩
  | restart => exact ⟨List.nodup_nil, rfl⟩

/-- Submission increments the score exactly when a selection exists, it
equals the current question's `correctAnswer`, and the current index has
not been scored since the last restart; otherwise the score is unchanged. -/
theorem quizStep_submit_iff (qs : List QuizQuestion) (s : QuizSessionState) :
    ((quizStep qs s .submit).score = s.score + 1 ↔
      ∃ sel q, s.selectedAnswer = some sel ∧ qs.get? s.currentIndex = some q ∧
        (sel : Int) = q.correctAnswer ∧ s.currentIndex ∉ s.answered) ∧
    ((quizStep qs s .submit).score = s.score ∨ (quizStep qs s .submit).score = s.score + 1) := by
  simp only [quizStep]
  cases hsel : s.selectedAnswer with
  | none =>
    dsimp only
    refine ⟨⟨fun h => absurd h (by omega), ?_⟩, Or.inl rfl⟩
    rintro ⟨sel, q, hs, -, -, -⟩
    exact Option.noConfusion hs
  | some sel =>
    dsimp only
    cases hq : qs.get? s.currentIndex with
    | none =>
      dsimp only
      refine ⟨⟨fun h => absurd h (by omega), ?_⟩, Or.inl rfl⟩
      rintro ⟨sel', q, -, hqq, -, -⟩
      exact Option.noConfusion hqq
    | some q =>
      dsimp only
      split
      · rename_i hcond
        refine ⟨⟨fun _ => ⟨sel, q, rfl, rfl, hcond.1, hcond.2⟩, fun _ => by simp⟩, Or.inr (by simp)⟩
      · rename_i hcond
        refine ⟨⟨fun h => absurd h (by simp), ?_⟩, Or.inl (by simp)⟩
        rintro ⟨sel', q', hs, hqq, hca, hmem⟩
        obtain rfl : sel = sel' := Option.some_inj.1 hs
        obtain rfl : q = q' := Option.some_inj.1 hqq
        exact absurd ⟨hca, hmem⟩ hcond

theorem quizFoldl_inv (qs : List QuizQuestion) (ops : List QuizOp) :
    ∀ s : QuizSessionState, s.answered.Nodup ∧ s.score = s.answered.length →
      (ops.foldl (quizStep qs) s).answered.Nodup ∧
        (ops.foldl (quizStep qs) s).score = (ops.foldl (quizStep qs) s).answered.length := by
  induction ops with
  | nil => intro s h; exact h
  | cons op rest ih => intro s h; exact ih _ (quizStep_score_inv qs s op h)

/-! ### Trim lemmas: non-blank content survives trimming -/

theorem jsTrim_eq_nil_iff (l : List Char) : jsTrim l = [] ↔ ∀ c ∈ l, jsWs c = true := by
  unfold jsTrim
  rw [List.reverse_eq_nil_iff, List.dropWhile_eq_nil_iff]
  constructor
  · intro h c hc
    have hsplit : c ∈ l.takeWhile jsWs ++ l.dropWhile jsWs := by
      rw [List.takeWhile_append_dropWhile]
      exact hc
    rcases List.mem_append.1 hsplit with h1 | h1
    · exact List.mem_takeWhile_imp h1
    · exact h c (List.mem_reverse.2 h1)
  · intro h c hc
    exact h c (List.dropWhile_subset _ (List.mem_reverse.1 hc))

theorem keptLine_exists_nonws {l : List Char} (h : keptLine l = true) :
    ∃ c ∈ l, jsWs c = false := by
  unfold keptLine at h
  have hne : jsTrim l ≠ [] := by
    intro he
    rw [he] at h
    simp at h
  by_contra hc
  push_neg at hc
  refine hne ((jsTrim_eq_nil_iff l).2 fun c hcl => ?_)
  have := hc c hcl
  simpa using this

theorem jsTrim_ne_nil_of_nonws {l : List Char} (h : ∃ c ∈ l, jsWs c = false) :
    jsTrim l ≠ [] := by
  obtain ⟨c, hc, hf⟩ := h
  intro he
  rw [jsTrim_eq_nil_iff] at he
  rw [he c hc] at hf
  exact Bool.noConfusion hf

theorem dropWhile_ws_nonws {x : List Char} (h : x.dropWhile jsWs ≠ []) :
    ∃ c ∈ x.dropWhile jsWs, jsWs c = false := by
  cases hd : x.dropWhile jsWs with
  | nil => exact absurd hd h
  | cons c rest =>
    have hh := List.head?_dropWhile_not jsWs x
    rw [hd] at hh
    simp only [List.head?_cons] at hh
    exact ⟨c, List.mem_cons_self _ _, hh⟩

theorem jsTrim_nonws {l : List Char} (h : jsTrim l ≠ []) :
    ∃ c ∈ jsTrim l, jsWs c = false := by
  have h2 : (l.dropWhile jsWs).reverse.dropWhile jsWs ≠ [] := by
    intro he
    apply h
    unfold jsTrim
    rw [he]
    rfl
  obtain ⟨c, hc, hf⟩ := dropWhile_ws_nonws h2
  refine ⟨c, ?_, hf⟩
  unfold jsTrim
  rw [List.mem_reverse]
  exact hc

theorem stripQMark_nonws {l : List Char} (h : stripQMark (jsTrim l) ≠ []) :
    ∃ c ∈ stripQMark (jsTrim l), jsWs c = false := by
  unfold stripQMark at *
  by_cases h1 : startsWithCI (jsTrim l) "q:".data = true
  · rw [if_pos h1] at h ⊢
    exact dropWhile_ws_nonws h
  · rw [if_neg h1] at h ⊢
    by_cases h2 : startsWithCI (jsTrim l) "question:".data = true
    · rw [if_pos h2] at h ⊢
      exact dropWhile_ws_nonws h
    · rw [if_neg h2] at h ⊢
      exact jsTrim_nonws h

theorem stripAMark_nonws {l : List Char} (hA : isAMark l = true) (h : stripAMark l ≠ []) :
    ∃ c ∈ stripAMark l, jsWs c = false := by
  unfold isAMark at hA
  rw [Bool.or_eq_true] at hA
  unfold stripAMark at *
  by_cases h1 : startsWithCI l "a:".data = true
  · rw [if_pos h1] at h ⊢
    exact dropWhile_ws_nonws h
  · rw [if_neg h1] at h ⊢
    by_cases h2 : startsWithCI l "answer:".data = true
    · rw [if_pos h2] at h ⊢
      exact dropWhile_ws_nonws h
    · rcases hA with hA | hA
      · exact absurd hA h1
      · exact absurd hA h2

theorem qaScanBack_nonws {ls : List (List Char)} :
    ∀ {back : List Char},
      (∀ l ∈ ls, ∃ c ∈ l, jsWs c = false) →
      (back ≠ [] → ∃ c ∈ back, jsWs c = false) →
      qaScanBack ls back ≠ [] → ∃ c ∈ qaScanBack ls back, jsWs c = false := by
  induction ls with
  | nil => intro back _ hback h; exact hback h
  | cons l rest ih =>
    intro back hls hback h
    unfold qaScanBack at h ⊢
    by_cases hq : isQMark l = true
    · rw [if_pos hq] at h ⊢
      exact hback h
    · rw [if_neg hq] at h ⊢
      refine ih (fun l' hl' => hls l' (List.mem_cons_of_mem _ hl')) ?_ h
      intro _
      obtain ⟨c, hc, hf⟩ := hls l (List.mem_cons_self _ _)
      exact ⟨c, by simp [hc], hf⟩

theorem qaFromA_nonws {ls : List (List Char)} :
    ∀ {front : List Char},
      (∀ l ∈ ls, ∃ c ∈ l, jsWs c = false) →
      (front ≠ [] → ∃ c ∈ front, jsWs c = false) →
      ((qaFromA ls front).1 ≠ [] → ∃ c ∈ (qaFromA ls front).1, jsWs c = false) ∧
      ((qaFromA ls front).2 ≠ [] → ∃ c ∈ (qaFromA ls front).2, jsWs c = false) := by
  induction ls with
  | nil =>
    intro front _ hfront
    exact ⟨hfront, fun h => absurd rfl h⟩
  | cons l rest ih =>
    intro front hls hfront
    unfold qaFromA
    split
    · rename_i hA
      refine ⟨hfront, ?_⟩
      exact qaScanBack_nonws (fun l' hl' => hls l' (List.mem_cons_of_mem _ hl'))
        (stripAMark_nonws hA)
    · refine ih (fun l' hl' => hls l' (List.mem_cons_of_mem _ hl')) ?_
      intro _
      obtain ⟨c, hc, hf⟩ := hls l (List.mem_cons_self _ _)
      exact ⟨c, by simp [hc], hf⟩

theorem qaFindQ_nonws {ls : List (List Char)}
    (hls : ∀ l ∈ ls, ∃ c ∈ l, jsWs c = false) :
    ∀ {fb : List Char × List Char}, qaFindQ ls = some fb →
      (fb.1 ≠ [] → ∃ c ∈ fb.1, jsWs c = false) ∧
      (fb.2 ≠ [] → ∃ c ∈ fb.2, jsWs c = false) := by
  induction ls with
  | nil => intro fb h; simp [qaFindQ] at h
  | cons l rest ih =>
    intro fb h
    unfold qaFindQ at h
    split at h
    · obtain rfl : _ = fb := Option.some_inj.1 h
      exact qaFromA_nonws (fun l' hl' => hls l' (List.mem_cons_of_mem _ hl')) stripQMark_nonws
    · exact ih (fun l' hl' => hls l' (List.mem_cons_of_mem _ hl')) h

theorem qaCard_trims {sec : List Char} {c : Flashcard} (h : qaCard sec = some c) :
    jsTrim c.front.data ≠ [] ∧ jsTrim c.back.data ≠ [] := by
  simp only [qaCard] at h
  split at h
  · exact Option.noConfusion h
  · split at h
    · exact Option.noConfusion h
    · rename_i fb hfb
      split at h
      · rename_i hcond
        simp only [Bool.and_eq_true, Bool.not_eq_true', List.isEmpty_eq_false] at hcond
        obtain rfl : _ = c := Option.some_inj.1 h
        have hls : ∀ l ∈ (splitNl sec).filter keptLine, ∃ ch ∈ l, jsWs ch = false :=
          fun l hl => keptLine_exists_nonws (List.of_mem_filter hl)
        obtain ⟨hf, hb⟩ := qaFindQ_nonws hls hfb
        constructor
        · exact jsTrim_ne_nil_of_nonws (jsTrim_nonws (jsTrim_ne_nil_of_nonws (hf hcond.1)))
        · exact jsTrim_ne_nil_of_nonws (jsTrim_nonws (jsTrim_ne_nil_of_nonws (hb hcond.2)))
      · exact Option.noConfusion h

theorem joinSep_head_mem {sep : Char} {r0 : List Char} {rest : List (List Char)} {c : Char}
    (hc : c ∈ r0) : c ∈ joinSep sep (r0 :: rest) := by
  cases rest with
  | nil => exact hc
  | cons r1 rs => exact List.mem_append.2 (Or.inl hc)

theorem fallbackCard_back {sec : List Char} {c : Flashcard} (h : fallbackCard sec = some c) :
    jsTrim c.back.data ≠ [] := by
  simp only [fallbackCard] at h
  split at h
  · exact Option.noConfusion h
  · rename_i hlen
    split at h
    · rename_i l0 rest heq
      obtain rfl : _ = c := Option.some_inj.1 h
      cases rest with
      | nil =>
        rw [heq] at hlen
        simp at hlen
      | cons r0 rs =>
        have hr0 : keptLine r0 = true := by
          have hmem : r0 ∈ (splitNl sec).filter keptLine := by
            rw [heq]
            exact List.mem_cons_of_mem _ (List.mem_cons_self _ _)
          exact List.of_mem_filter hmem
        obtain ⟨ch, hch, hf⟩ := keptLine_exists_nonws hr0
        exact jsTrim_ne_nil_of_nonws ⟨ch, joinSep_head_mem hch, hf⟩
    · exact Option.noConfusion h

/-- Cards from the primary `Q:`/`A:` grammar have non-blank front and
back; every card the flashcards text grammar returns (either grammar or
the sample fallback) has a non-blank back. -/
theorem parseTextFlashcards_trims (text : List Char) :
    (∀ c ∈ (splitBlank text).filterMap qaCard,
      jsTrim c.front.data ≠ [] ∧ jsTrim c.back.data ≠ []) ∧
    (∀ c ∈ parseTextFlashcards text, jsTrim c.back.data ≠ []) := by
  constructor
  · intro c hc
    obtain ⟨sec, -, hsec⟩ := List.mem_filterMap.1 hc
    exact qaCard_trims hsec
  · intro c hc
    simp only [parseTextFlashcards] at hc
    split at hc
    · split at hc
      · rw [List.mem_singleton.1 hc]
        decide
      · obtain ⟨sec, -, hsec⟩ := List.mem_filterMap.1 hc
        exact fallbackCard_back hsec
    · obtain ⟨sec, -, hsec⟩ := List.mem_filterMap.1 hc
      exact (qaCard_trims hsec).2

/-! ### The text grammars with a default never return an empty model -/

theorem parseTextTimeline_ne_nil (text : List Char) : parseTextTimeline text ≠ [] := by
  simp only [parseTextTimeline]
  split
  · split
    · simp
    · rename_i h
      simpa using h
  · rename_i h
    simpa [List.isEmpty_iff] using h

theorem parseTextFlashcards_ne_nil (text : List Char) : parseTextFlashcards text ≠ [] := by
  simp only [parseTextFlashcards]
  split
  · split
    · simp
    · rename_i h
      simpa [List.filterMap_eq_nil_iff] using h
  · rename_i h
    simpa [List.isEmpty_iff] using h

theorem parseTextMindMap_nodes_ne_nil (text : List Char) :
    (parseTextMindMap text).nodes ≠ [] := by
  simp only [parseTextMindMap]
  split
  · simp
  · rename_i h
    simpa [List.isEmpty_iff] using h

/-! ## The settled claims -/

/-- Claim C1, counterexample: the quiz viewer on the JSON object `\x7b\x7d`
(well-formed JSON of the wrong shape) returns an empty model, so not every
kind returns a non-empty model on every string. -/
theorem claim_C1_counterexample : quizNormalize "\x7b\x7d".data = [] := rfl

/-- Claim C1 (amended): the three text grammars that carry a default —
timeline, flashcards, mind map — return a non-empty model on every input
string.  (The quiz JSON path returns an empty model on wrong-shape JSON,
see the counterexample.) -/
theorem claim_C1_totality (text : List Char) :
    parseTextTimeline text ≠ [] ∧ parseTextFlashcards text ≠ [] ∧
      (parseTextMindMap text).nodes ≠ [] :=
  ⟨parseTextTimeline_ne_nil text, parseTextFlashcards_ne_nil text,
    parseTextMindMap_nodes_ne_nil text⟩

/-- Claim C2, counterexample: on `"A\n  B\n    C\n  D\n    E"` the node E
(depth 2, `node-4`) gets its edge from B (`node-1`), not from the nearest
preceding depth-1 node D (`node-3`): after the dedent to D the parser
pushes D above the stale B entry, so a following re-indent reads B. -/
theorem claim_C2_counterexample :
    ((parseTextMindMap "A\n  B\n    C\n  D\n    E".data).edges.map
        (fun e => (e.source, e.target))) =
      [("node-0", "node-1"), ("node-1", "node-2"),
       ("node-0", "node-3"), ("node-1", "node-4")] := by decide

/-- Claim C2 (amended): on staircase inputs — emitted depth sequence
starting at 0 and rising by at most one per line — every depth-`lv+1` node
has exactly one incoming edge, from the nearest preceding depth-`lv` node,
and depth-0 nodes have none.  The unrestricted claim fails after a
dedent-then-reindent, see the counterexample. -/
theorem claim_C2_staircase_parent (text : List Char)
    (hst : StaircaseLevels (levelsOf (mmItems text)) = true)
    (k : Nat) (hk : k < (mmItems text).length) :
    ((levelsOf (mmItems text)).getD k 0 = 0 →
        (parseTextMindMap text).edges.filter (fun e => e.target == mkNodeId k) = []) ∧
    ∀ lv, (levelsOf (mmItems text)).getD k 0 = lv + 1 →
      ∃ j, j < k ∧ (levelsOf (mmItems text)).getD j 0 = lv ∧
        (∀ i, j < i → i < k → (levelsOf (mmItems text)).getD i 0 ≠ lv) ∧
        ((parseTextMindMap text).edges.filter (fun e => e.target == mkNodeId k)).map
          MMEdge.source = [mkNodeId j] :=
  parseTextMindMap_staircase_parent text hst k hk

/-- Claim C2, witness: the staircase theorem applied to `"A\n  B"` at the
depth-1 node `node-1`. -/
theorem claim_C2_staircase_parent_witness :
    ((levelsOf (mmItems "A\n  B".data)).getD 1 0 = 0 →
        (parseTextMindMap "A\n  B".data).edges.filter
          (fun e => e.target == mkNodeId 1) = []) ∧
    ∀ lv, (levelsOf (mmItems "A\n  B".data)).getD 1 0 = lv + 1 →
      ∃ j, j < 1 ∧ (levelsOf (mmItems "A\n  B".data)).getD j 0 = lv ∧
        (∀ i, j < i → i < 1 → (levelsOf (mmItems "A\n  B".data)).getD i 0 ≠ lv) ∧
        ((parseTextMindMap "A\n  B".data).edges.filter
            (fun e => e.target == mkNodeId 1)).map MMEdge.source = [mkNodeId j] :=
  claim_C2_staircase_parent "A\n  B".data (by decide) 1 (by decide)

/-- Claim C3, counterexample: the text grammar resolves `Answer: D` to
index 3 even in a block with only two options, so `correctAnswer <
options.length` fails. -/
theorem claim_C3_counterexample :
    parseTextQuiz "1. Q?\nA) x\nB) y\nAnswer: D".data =
      [⟨"Q?", ["x", "y"], 3, ""⟩] := by decide

/-- Claim C3 (amended): every question the quiz text grammar emits has
`0 ≤ correctAnswer ≤ 3` (a letter index, defaulting to 0 when no letter is
extractable) and at least two options; `correctAnswer < options.length` is
not guaranteed, see the counterexample. -/
theorem claim_C3_answer_bounds (text : List Char) :
    ∀ q ∈ parseTextQuiz text,
      0 ≤ q.correctAnswer ∧ q.correctAnswer ≤ 3 ∧ 2 ≤ q.options.length :=
  parseTextQuiz_bounds text

/-- Claim C3, witness: the bounds at the question parsed from a concrete
two-option block. -/
theorem claim_C3_answer_bounds_witness :
    0 ≤ (QuizQuestion.mk "What?" ["x", "y"] 1 "").correctAnswer ∧
      (QuizQuestion.mk "What?" ["x", "y"] 1 "").correctAnswer ≤ 3 ∧
      2 ≤ (QuizQuestion.mk "What?" ["x", "y"] 1 "").options.length :=
  claim_C3_answer_bounds "1. What?\nA) x\nB) y\nAnswer: B".data
    ⟨"What?", ["x", "y"], 1, ""⟩ (by decide)

/-- Claim C4, counterexample: the timeline viewer does not strip fences —
a fenced well-formed JSON payload fails `JSON.parse` and is routed to the
timeline free-text grammar instead of the JSON path. -/
theorem claim_C4_counterexample :
    timelineNormalize "```json\n[]\n```".data =
      [Json.obj [("date", Json.str "Date Unknown"), ("title", Json.str "```json"),
                 ("description", Json.str "[] ```")]] := rfl

/-- Claim C4 (amended): only the quiz viewer strips code fences before
`JSON.parse`, so a fenced JSON payload is decoded on the quiz JSON path;
the mind map, timeline, and flashcards viewers parse the raw content, so
the same fenced input falls through to their free-text grammars. -/
theorem claim_C4_fence_stripping :
    quizNormalize "```json\n[\x7b\"question\":\"q\",\"options\":[\"x\",\"y\"],\"correctAnswer\":1\x7d]\n```".data =
      [Json.obj [("question", Json.str "q"), ("options", Json.arr [Json.str "x", Json.str "y"]),
                 ("correctAnswer", Json.num 1 0)]] ∧
    mindMapNormalize "```json\n[]\n```".data =
      .fromText (parseTextMindMap "```json\n[]\n```".data) ∧
    timelineNormalize "```json\n[]\n```".data =
      (parseTextTimeline "```json\n[]\n```".data).map tEventToJson ∧
    flashcardsNormalize "```json\n[]\n```".data =
      (parseTextFlashcards "```json\n[]\n```".data).map flashcardToJson :=
  ⟨rfl, rfl, rfl, rfl⟩

/-- Claim C5: `Answer: B` resolves to index 1, `Correct Answer: **C**` to
index 2, and an Answer line with no extractable letter A–D to the default
index 0, each in a block with a question and at least two options. -/
theorem claim_C5_answer_resolution :
    parseTextQuiz "1. What?\nA) x\nB) y\nAnswer: B".data =
        [⟨"What?", ["x", "y"], 1, ""⟩] ∧
    parseTextQuiz "1. Pick\nA) x\nB) y\nC) z\nCorrect Answer: **C**".data =
        [⟨"Pick", ["x", "y", "z"], 2, ""⟩] ∧
    parseTextQuiz "1. Pick\nA) x\nB) y\nAnswer: unknown".data =
        [⟨"Pick", ["x", "y"], 0, ""⟩] := by decide

/-- Claim C6: after any sequence of UI events from the initial state, the
set of scored question indices has no duplicates and the score equals its
size (so each question contributes at most 1 per pass); a further submit
raises the score by exactly 1 precisely when a selection exists, it equals
the current question's `correctAnswer`, and the current index has not been
scored since the last restart — and by at most 1 in every case. -/
theorem claim_C6_score_idempotent (qs : List QuizQuestion) (ops : List QuizOp) :
    ((quizRun qs ops).answered.Nodup ∧
      (quizRun qs ops).score = (quizRun qs ops).answered.length) ∧
    ((quizStep qs (quizRun qs ops) .submit).score = (quizRun qs ops).score + 1 ↔
      ∃ sel q, (quizRun qs ops).selectedAnswer = some sel ∧
        qs.get? (quizRun qs ops).currentIndex = some q ∧
        (sel : Int) = q.correctAnswer ∧
        (quizRun qs ops).currentIndex ∉ (quizRun qs ops).answered) ∧
    ((quizStep qs (quizRun qs ops) .submit).score = (quizRun qs ops).score ∨
      (quizStep qs (quizRun qs ops) .submit).score = (quizRun qs ops).score + 1) :=
  ⟨quizFoldl_inv qs ops quizInit ⟨List.nodup_nil, rfl⟩,
    (quizStep_submit_iff qs (quizRun qs ops)).1,
    (quizStep_submit_iff qs (quizRun qs ops)).2⟩

/-- Claim C7: on `"A\n  B\n    C\n  D\n E"` the outline grammar emits
exactly the edges A→B, B→C, A→D, and the depth-0 node E (`node-4`) has no
incoming edge. -/
theorem claim_C7_concrete_outline :
    ((parseTextMindMap "A\n  B\n    C\n  D\n E".data).edges.map
        (fun e => (e.source, e.target))) =
      [("node-0", "node-1"), ("node-1", "node-2"), ("node-0", "node-3")] ∧
    (parseTextMindMap "A\n  B\n    C\n  D\n E".data).nodes.map MMNode.label =
      ["A", "B", "C", "D", "E"] ∧
    (parseTextMindMap "A\n  B\n    C\n  D\n E".data).edges.filter
        (fun e => e.target == "node-4") = [] := by decide

/-- Claim C8, counterexample: a block whose first line matches no date
pattern yields the literal date `"Date Unknown"`, not `"Unknown"`. -/
theorem claim_C8_counterexample :
    parseTextTimeline "hello".data = [⟨"Date Unknown", "hello", ""⟩] := by decide

/-- Claim C8 (amended): the timeline grammar never returns an empty model,
but its three no-date defaults differ: a dateless first line gives
`"Date Unknown"`, the zero-events placeholder gives `"Sample Date"`, and
only the heading/bullet fallback pass uses `"Unknown"`. -/
theorem claim_C8_unknown_dates :
    (∀ text, parseTextTimeline text ≠ []) ∧
    parseTextTimeline "hello".data = [⟨"Date Unknown", "hello", ""⟩] ∧
    parseTextTimeline "".data = [⟨"Sample Date", "Sample Event", "Sample Description"⟩] ∧
    parseTextTimeline "2020\n- a\n- b".data =
      [⟨"Unknown", "a", ""⟩, ⟨"Unknown", "b", ""⟩] :=
  ⟨parseTextTimeline_ne_nil, by decide, by decide, by decide⟩

/-- Claim C9, counterexample: the numbered-format fallback emits a card
with an empty front when a block's first line is just `"1."`. -/
theorem claim_C9_counterexample :
    parseTextFlashcards "1.\nX".data = [⟨"", "X"⟩] := by decide

/-- Claim C9 (amended): cards from the primary `Q:`/`A:` grammar have
fronts and backs that are non-empty after trimming, and every card the
flashcards text grammar returns has a non-blank back; the numbered
fallback can emit a blank front, see the counterexample. -/
theorem claim_C9_card_nonblank (text : List Char) :
    (∀ c ∈ (splitBlank text).filterMap qaCard,
      jsTrim c.front.data ≠ [] ∧ jsTrim c.back.data ≠ []) ∧
    (∀ c ∈ parseTextFlashcards text, jsTrim c.back.data ≠ []) :=
  parseTextFlashcards_trims text

/-- Claim C10: for every input the outline grammar's graph is well-formed:
node ids are `node-0`, `node-1`, … in parse order (pairwise distinct),
every edge endpoint names a present node, and no node is the target of
two edges. -/
theorem claim_C10_graph_wellformed (text : List Char) :
    (parseTextMindMap text).nodes.map MMNode.id =
        (List.range (parseTextMindMap text).nodes.length).map mkNodeId ∧
    ((parseTextMindMap text).nodes.map MMNode.id).Nodup ∧
    (∀ e ∈ (parseTextMindMap text).edges,
        e.source ∈ (parseTextMindMap text).nodes.map MMNode.id ∧
        e.target ∈ (parseTextMindMap text).nodes.map MMNode.id) ∧
    ((parseTextMindMap text).edges.map MMEdge.target).Nodup :=
  parseTextMindMap_wellformed text

end NexusVerify
